import Mathlib

/-!
Shallow embedding of the `enhanced-module-alias` manager (source file
`index.js`, the single implementation file of the repository).

Modelling conventions:
* JS strings are Lean `String`s viewed through their character data
  (`String.data`); indexing, length and slicing are character based.
* The Node `path` module is modelled in its posix form: `path.normalize`
  and the binary `path.join` used by the source.
* The single shared `performanceCache` (a JS `Map`) is an insertion-ordered
  association list; `Map.set` updates in place or appends, `Map.delete`
  removes the entry of a key, `map.keys().next().value` is the head key.
* `Date.now()` is an explicit `now : Nat` argument threaded into each
  public operation (a single timestamp per call).
* JS exceptions are `Except String`; mutating operations that can throw
  return the error together with the state as mutated before the throw,
  since the manager object is mutated in place.
* Dynamic alias targets (`typeof target === 'function'`) are functions
  `String → String → String → FnRes`, where `FnRes` records either a
  returned JS value (a string or some non-string value) or a thrown error.
* External effects with no bearing on the claims are omitted: logging,
  event emission, `fs.existsSync` advisory checks, `fs.watch` handles,
  Node's `Module._resolveFilename`/`module.paths` patching and the
  `require.cache` manipulation.
-/

/-- A JS value as returned by a custom resolver function: a string, or any
non-string value (`undefined`, `null`, numbers, objects, ...). -/
inductive JsVal where
  | str (s : String)
  | other
deriving DecidableEq

/-- Outcome of invoking a JS function: a returned value or a thrown error
(identified by its message). -/
inductive FnRes where
  | ret (v : JsVal)
  | thrown (msg : String)
deriving DecidableEq

/-- A stored alias target: `moduleAliases[alias]` is a (normalized) path
string or a custom resolver function. -/
inductive Target where
  | str (s : String)
  | fn (f : String → String → String → FnRes)

/-- A raw JS argument as passed to `addAlias`/`addPath`: a string, a
function, or any other value. -/
inductive JsIn where
  | str (s : String)
  | fn (f : String → String → String → FnRes)
  | other

/-- A value stored in the shared `performanceCache`: the match cache stores
booleans, the resolution cache stores strings. -/
inductive CVal where
  | bool (b : Bool)
  | str (s : String)
deriving DecidableEq

/-- A `performanceCache` entry: `{ value, timestamp: Date.now() }`. -/
structure CacheEntry where
  value : CVal
  timestamp : Nat
deriving DecidableEq

/-- The performance metrics object `this.stats`. -/
structure Stats where
  resolutions : Nat
  cacheHits : Nat
  aliasMatches : Nat
deriving DecidableEq

/-- The mutable state of a `ModuleAliasManager` instance (the fields the
claims depend on; watcher and event bookkeeping is external). -/
structure ManagerState where
  modulePaths : List String
  moduleAliases : List (String × Target)
  moduleAliasNames : List String
  performanceCache : List (String × CacheEntry)
  stats : Stats

/-- The freshly constructed manager: empty paths, aliases, cache, zero
stats. -/
def mgrInit : ManagerState :=
  { modulePaths := []
    moduleAliases := []
    moduleAliasNames := []
    performanceCache := []
    stats := { resolutions := 0, cacheHits := 0, aliasMatches := 0 } }

/-! ### JS string primitives (character based) -/

/-- JS `s[i]`: the character at index `i`, or `undefined` past the end. -/
def jsCharAt (s : String) (i : Nat) : Option Char :=
  s.data.get? i

/-- JS `s.substr(n)`: drop the first `n` characters. -/
def jsSubstr (s : String) (n : Nat) : String :=
  ⟨s.data.drop n⟩

/-- Whether `sub` occurs contiguously inside `l`. -/
def listInfix (sub : List Char) : List Char → Bool
  | [] => sub.isEmpty
  | c :: t => sub.isPrefixOf (c :: t) || listInfix sub t

/-- Whether the string `sub` occurs inside `s` (used to state that an error
message names an alias). -/
def strContains (s sub : String) : Bool :=
  listInfix sub.data s.data

/-! ### Node `path` (posix): `normalize` and binary `join` -/

/-- Split a character list on `'/'`, keeping empty segments (the segment
list of a posix path). -/
def splitSlash : List Char → List (List Char)
  | [] => [[]]
  | c :: cs =>
    if c = '/' then [] :: splitSlash cs
    else
      match splitSlash cs with
      | [] => [[c]]
      | s :: rest => (c :: s) :: rest

/-- One step of Node's `normalizeString`: fold a segment onto the stack of
kept segments (stack in reverse order). -/
def normStep (allowAbove : Bool) (acc : List (List Char)) (s : List Char) : List (List Char) :=
  if s = [] ∨ s = ['.'] then acc
  else if s = ['.', '.'] then
    match acc with
    | [] => if allowAbove then [s] else []
    | t :: rest => if allowAbove && t = ['.', '.'] then s :: acc else rest
  else s :: acc

/-- The kept segments of a path, in order. -/
def normCore (allowAbove : Bool) (segs : List (List Char)) : List (List Char) :=
  (segs.foldl (normStep allowAbove) []).reverse

/-- Join segments with `'/'`. -/
def joinSegs : List (List Char) → List Char
  | [] => []
  | [s] => s
  | s :: rest => s ++ '/' :: joinSegs rest

/-- Node posix `path.normalize`. -/
def nodeNormalize (p : String) : String :=
  if p = "" then "."
  else
    let cs := p.data
    let isAbs := cs.head? = some '/'
    let trail := cs.getLast? = some '/'
    let core := joinSegs (normCore (!isAbs) (splitSlash cs))
    if core = [] then
      if isAbs then "/" else if trail then "./" else "."
    else
      let core' := if trail then core ++ ['/'] else core
      if isAbs then ⟨'/' :: core'⟩ else ⟨core'⟩

/-- Node posix `path.join(a, b)`: empty parts are skipped, the rest are
joined with `'/'` and normalized; with no parts the result is `"."`. -/
def nodeJoin (a b : String) : String :=
  if a = "" then (if b = "" then "." else nodeNormalize b)
  else if b = "" then nodeNormalize a
  else nodeNormalize ⟨a.data ++ '/' :: b.data⟩

/-! ### Association-list primitives (JS `Map` / plain-object semantics) -/

/-- Lookup by key (first binding). -/
def assocLookup {β : Type} : List (String × β) → String → Option β
  | [], _ => none
  | (k', v) :: rest, k => if k' = k then some v else assocLookup rest k

/-- JS `Map.set` / object assignment: update the binding in place if the
key is present, else append. -/
def assocSet {β : Type} : List (String × β) → String → β → List (String × β)
  | [], k, v => [(k, v)]
  | (k', v') :: rest, k, v =>
    if k' = k then (k, v) :: rest else (k', v') :: assocSet rest k v

/-- JS `Map.delete k`: remove the binding of `k`. -/
def assocDelete {β : Type} : List (String × β) → String → List (String × β)
  | [], _ => []
  | (k', v') :: rest, k => if k' = k then rest else (k', v') :: assocDelete rest k

/-! ### The resolution cache (`getCachedResolution` / `setCachedResolution`) -/

/-- The cache store update of `setCachedResolution`: `Map.set`, then if the
size exceeds 1000 delete the first (oldest-inserted) key. -/
def cachePut (c : List (String × CacheEntry)) (k : String) (e : CacheEntry) :
    List (String × CacheEntry) :=
  let c1 := assocSet c k e
  if 1000 < c1.length then
    match c1.head? with
    | some p => assocDelete c1 p.1
    | none => c1
  else c1

/-- `getCachedResolution(key)`: a hit (entry younger than the 5000 ms TTL)
returns the value and bumps `stats.cacheHits`; otherwise `null`. -/
def getCachedResolution (st : ManagerState) (now : Nat) (key : String) :
    Option CVal × ManagerState :=
  match assocLookup st.performanceCache key with
  | some e =>
    if now - e.timestamp < 5000 then
      (some e.value,
        { st with stats := { st.stats with cacheHits := st.stats.cacheHits + 1 } })
    else (none, st)
  | none => (none, st)

/-- `setCachedResolution(key, value)`. -/
def setCachedResolution (st : ManagerState) (now : Nat) (key : String) (v : CVal) :
    ManagerState :=
  { st with performanceCache := cachePut st.performanceCache key ⟨v, now⟩ }

/-! ### The path matcher (`isPathMatchesAlias`) -/

/-- JS truthiness of a cached value, as used by `if (cached) ...` style
returns: a boolean is itself, a string is truthy iff non-empty. -/
def cvalTruthy : CVal → Bool
  | .bool b => b
  | .str s => s ≠ ""

/-- The uncached matching logic of `isPathMatchesAlias` (lines 80-89):
`path.indexOf(alias) === 0` and then the boundary check. -/
def isPathMatchesAliasPure (path a : String) : Bool :=
  if a.data.isPrefixOf path.data then
    if path.length == a.length then true
    else
      match jsCharAt path a.length with
      | some c => c == '/' || c == '\\'
      | none => false
  else false

/-- The match-cache key `` `${path}:${alias}` ``. -/
def matchKey (path a : String) : String :=
  ⟨path.data ++ ':' :: a.data⟩

/-- `isPathMatchesAlias(path, alias)` with its cache consultation. -/
def isPathMatchesAlias (st : ManagerState) (now : Nat) (path a : String) :
    Bool × ManagerState :=
  match getCachedResolution st now (matchKey path a) with
  | (some v, st1) => (cvalTruthy v, st1)
  | (none, st1) =>
    let m := isPathMatchesAliasPure path a
    (m, setCachedResolution st1 now (matchKey path a) (.bool m))

/-! ### The resolver (`resolveAlias`) -/

/-- `(parentModule && parentModule.filename) || 'unknown'` (the resolution
cache-key context). -/
def ctxStr : Option String → String
  | some f => if f = "" then "unknown" else f
  | none => "unknown"

/-- `(parentModule && parentModule.filename) || process.cwd()` (the
`fromPath` handed to custom resolver functions); `cwd` is the ambient
`process.cwd()`. -/
def fromPathOf (parent : Option String) (cwd : String) : String :=
  match parent with
  | some f => if f = "" then cwd else f
  | none => cwd

/-- The resolution cache key `` `resolve:${request}:${...filename || 'unknown'}` ``. -/
def resolveKey (request : String) (parent : Option String) : String :=
  ⟨("resolve:").data ++ request.data ++ ':' :: (ctxStr parent).data⟩

/-- The error thrown when a custom handler returns an empty string or a
non-string value. -/
def handlerErr (a : String) : String :=
  ⟨("Custom handler function for alias \x27").data ++ a.data ++
    ("\x27 must return a valid path string").data⟩

/-- Stable descending insertion by string length. -/
def insertDesc (a : String) : List String → List String
  | [] => [a]
  | b :: bs => if b.length ≤ a.length then a :: b :: bs else b :: insertDesc a bs

/-- `names.slice().sort((a, b) => b.length - a.length)`: a stable sort by
descending length. -/
def sortDesc : List String → List String
  | [] => []
  | a :: rest => insertDesc a (sortDesc rest)

/-- The first alias of the list that matches the request. -/
def firstMatch (request : String) : List String → Option String
  | [] => none
  | a :: rest =>
    if isPathMatchesAliasPure request a then some a else firstMatch request rest

/-- The alias `resolveAlias` selects: the first match among the names
sorted by descending length. -/
def chosenAlias (st : ManagerState) (request : String) : Option String :=
  firstMatch request (sortDesc st.moduleAliasNames)

/-- The body of the matched-alias branch of `resolveAlias`, as a pure
function of the table: dispatch on the target, invoke and validate a
custom resolver, and join the base path with the request remainder. -/
def pureApply (tbl : List (String × Target)) (request : String)
    (parent : Option String) (cwd : String) (a : String) : Except String String :=
  match assocLookup tbl a with
  | none => .error "Path must be a string"
  | some (.str t) => .ok (nodeJoin t (jsSubstr request a.length))
  | some (.fn f) =>
    match f (fromPathOf parent cwd) request a with
    | .thrown msg => .error msg
    | .ret (.str s) =>
      if s = "" then .error (handlerErr a)
      else .ok (nodeJoin s (jsSubstr request a.length))
    | .ret .other => .error (handlerErr a)

/-- The cache-free resolution function: longest-first selection, then
`pureApply`; pass-through when nothing matches. -/
def pureResolveStr (st : ManagerState) (request : String)
    (parent : Option String) (cwd : String) : Except String String :=
  match chosenAlias st request with
  | none => .ok request
  | some a => pureApply st.moduleAliases request parent cwd a

/-- The `for (const alias of sortedAliases)` loop of `resolveAlias`,
threading the manager state through the cached match checks; a match bumps
`stats.aliasMatches` and breaks out of the loop with the body's outcome,
which is exactly `pureApply` of the current table. -/
def resolveLoop (st : ManagerState) (now : Nat) (request : String)
    (parent : Option String) (cwd : String) :
    List String → Except String String × ManagerState
  | [] => (.ok request, st)
  | a :: rest =>
    match isPathMatchesAlias st now request a with
    | (m, st1) =>
      if m then
        let st2 :=
          { st1 with stats := { st1.stats with aliasMatches := st1.stats.aliasMatches + 1 } }
        (pureApply st2.moduleAliases request parent cwd a, st2)
      else resolveLoop st1 now request parent cwd rest

/-- `resolveAlias(request, parentModule)`: bump `stats.resolutions`, try the
resolution cache, otherwise run the longest-first matching loop and cache
the outcome.  The cache-hit branch returns the stored value as-is. -/
def resolveAlias (st : ManagerState) (now : Nat) (request : String)
    (parent : Option String) (cwd : String) : Except String CVal × ManagerState :=
  let st0 := { st with stats := { st.stats with resolutions := st.stats.resolutions + 1 } }
  match getCachedResolution st0 now (resolveKey request parent) with
  | (some v, st1) => (.ok v, st1)
  | (none, st1) =>
    match resolveLoop st1 now request parent cwd (sortDesc st1.moduleAliasNames) with
    | (.error e, st2) => (.error e, st2)
    | (.ok r, st2) =>
      (.ok (.str r), setCachedResolution st2 now (resolveKey request parent) (.str r))

/-- Iterated resolution of one request (times of the successive calls given
by `ts`), returning all results. -/
def resolveMany (st : ManagerState) (request : String) (parent : Option String)
    (cwd : String) : List Nat → List (Except String CVal) × ManagerState
  | [] => ([], st)
  | t :: ts =>
    match resolveAlias st t request parent cwd with
    | (r, st1) =>
      match resolveMany st1 request parent cwd ts with
      | (rs, st2) => (r :: rs, st2)

/-! ### Alias table mutation (`addAlias`, `addAliases`) -/

/-- `addAlias(alias, target)`: validate both arguments, normalize a string
target, store it, refresh the name list and clear the cache.  On a
validation error the state is unchanged (the throw precedes any mutation). -/
def addAlias (st : ManagerState) (a : JsIn) (target : JsIn) :
    Except String Unit × ManagerState :=
  match a with
  | .fn _ => (.error "Alias must be a non-empty string", st)
  | .other => (.error "Alias must be a non-empty string", st)
  | .str name =>
    if name = "" then (.error "Alias must be a non-empty string", st)
    else
      match target with
      | .other => (.error "Target must be a non-empty string or function", st)
      | .str s =>
        if s = "" then (.error "Target must be a non-empty string or function", st)
        else
          let tbl := assocSet st.moduleAliases name (.str (nodeNormalize s))
          (.ok (),
            { st with
              moduleAliases := tbl
              moduleAliasNames := tbl.map Prod.fst
              performanceCache := [] })
      | .fn f =>
        let tbl := assocSet st.moduleAliases name (.fn f)
        (.ok (),
          { st with
            moduleAliases := tbl
            moduleAliasNames := tbl.map Prod.fst
            performanceCache := [] })

/-- `addAliases(aliases)`: `addAlias` for each pair in turn; a throw aborts
the iteration, keeping the entries added before it. -/
def addAliases (st : ManagerState) : List (String × JsIn) →
    Except String Unit × ManagerState
  | [] => (.ok (), st)
  | (a, t) :: rest =>
    match addAlias st (.str a) t with
    | (.error e, st1) => (.error e, st1)
    | (.ok _, st1) => addAliases st1 rest

/-! ### Search paths (`addPath`) and `reset`, `getStats` -/

/-- `addPath(path)`: `path = nodePath.normalize(path)` runs first (throwing
the Node `TypeError` on a non-string), then the own validation check, then
the duplicate test and push.  The mutation of `require.main.paths` and of
ancestor module `paths` arrays is external and omitted. -/
def addPath (st : ManagerState) (p : JsIn) : Except String Unit × ManagerState :=
  match p with
  | .str s =>
    let path := nodeNormalize s
    if path = "" then (.error "Path must be a non-empty string", st)
    else if st.modulePaths.contains path then (.ok (), st)
    else (.ok (), { st with modulePaths := st.modulePaths ++ [path] })
  | _ => (.error "Path must be a string", st)

/-- `reset()`: clear the paths, the alias table, the cache and the stats
(the search-path restoration and watcher shutdown are external). -/
def reset (_st : ManagerState) : ManagerState :=
  { modulePaths := []
    moduleAliases := []
    moduleAliasNames := []
    performanceCache := []
    stats := { resolutions := 0, cacheHits := 0, aliasMatches := 0 } }

/-- The record returned by `getStats()`. -/
structure StatsOut where
  resolutions : Nat
  cacheHits : Nat
  aliasMatches : Nat
  cacheSize : Nat
  aliasCount : Nat
  pathCount : Nat
deriving DecidableEq

/-- `getStats()`. -/
def getStats (st : ManagerState) : StatsOut :=
  { resolutions := st.stats.resolutions
    cacheHits := st.stats.cacheHits
    aliasMatches := st.stats.aliasMatches
    cacheSize := st.performanceCache.length
    aliasCount := st.moduleAliasNames.length
    pathCount := st.modulePaths.length }

/-! ### Live reload (`reloadAliases`) -/

/-- The per-entry target preprocessing of the reload loop:
`if (target[0] !== '/') target = nodePath.join(base, target)`; a
non-string target makes `nodePath.join` throw. -/
def reloadAdjust (base : String) : JsIn → Except String String
  | .str s => if jsCharAt s 0 = some '/' then .ok s else .ok (nodeJoin base s)
  | _ => .error "Path must be a string"

/-- The `for (const alias in aliases)` loop of `reloadAliases`; a throw
from the preprocessing or from `addAlias` propagates to the surrounding
`catch`, which keeps the state mutated so far. -/
def reloadAdd (st : ManagerState) (base : String) :
    List (String × JsIn) → ManagerState
  | [] => st
  | (a, t) :: rest =>
    match reloadAdjust base t with
    | .error _ => st
    | .ok t' =>
      match addAlias st (.str a) (.str t') with
      | (.error _, st1) => st1
      | (.ok _, st1) => reloadAdd st1 base rest

/-- `reloadAliases(packageJsonPath)`: `read` is the outcome of re-reading
and parsing the configuration source (`require` of the package.json),
which happens before any state mutation; on success the alias table and
the cache are cleared and every mapping entry is re-added; any throw is
caught and logged, keeping the state reached at that point. -/
def reloadAliases (st : ManagerState) (base : String)
    (read : Except String (List (String × JsIn))) : ManagerState :=
  match read with
  | .error _ => st
  | .ok aliases =>
    reloadAdd
      { st with moduleAliases := [], moduleAliasNames := [], performanceCache := [] }
      base aliases

/-! ### Auxiliary definitions used by the statements of the claims -/

/-- Insert a sequence of cache keys (with a fixed entry) in order. -/
def putKeys (c : List (String × CacheEntry)) (e : CacheEntry) :
    List String → List (String × CacheEntry)
  | [] => c
  | k :: ks => putKeys (cachePut c k e) e ks

/-- A family of pairwise-distinct cache keys. -/
def akey (n : Nat) : String :=
  ⟨List.replicate n 'a'⟩

/-- Whether a raw JS target argument passes the validation of `addAlias`:
a non-empty string or a function. -/
def validTarget : JsIn → Bool
  | .str s => s ≠ ""
  | .fn _ => true
  | .other => false

/-- The `TypeError` message `addAlias` throws for a given invalid pair
(the alias is validated first). -/
def addErrMsg (a : String) (t : JsIn) : String :=
  if a = "" then "Alias must be a non-empty string"
  else if validTarget t then "" else "Target must be a non-empty string or function"

/-- The state after applying `addAlias` to each pair in order (discarding
the thrown error, which for valid pairs never occurs). -/
def applyAliases (st : ManagerState) (l : List (String × JsIn)) : ManagerState :=
  l.foldl (fun s p => (addAlias s (.str p.1) p.2).2) st

/-- The stored target a reload produces from a raw string target: base
adjustment of relative targets, then the `addAlias` normalization. -/
def reloadTargetOf (base s : String) : String :=
  nodeNormalize (if jsCharAt s 0 = some '/' then s else nodeJoin base s)

/-- The bookkeeping invariant of the shared cache store: at most 1000
entries, with pairwise-distinct keys (`performanceCache` is a JS `Map`). -/
def cacheOkP (c : List (String × CacheEntry)) : Prop :=
  c.length ≤ 1000 ∧ (c.map Prod.fst).Nodup

/-- The cached match results for `request` agree with the uncached matching
logic, for every alias of the given name list. -/
def matchConsistent (c : List (String × CacheEntry)) (request : String)
    (names : List String) : Prop :=
  ∀ a ∈ names, ∀ e, assocLookup c (matchKey request a) = some e →
    e.value = CVal.bool (isPathMatchesAliasPure request a)

/-- A two-alias table, `"@a" → /x` registered before `"@a/b" → /y`
(freshly registered: the cache is clear, as every `addAlias` leaves it). -/
def stC1a : ManagerState :=
  { mgrInit with
    moduleAliases := [("@a", Target.str "/x"), ("@a/b", Target.str "/y")]
    moduleAliasNames := ["@a", "@a/b"] }

/-- The same two-alias table with the opposite registration order. -/
def stC1b : ManagerState :=
  { mgrInit with
    moduleAliases := [("@a/b", Target.str "/y"), ("@a", Target.str "/x")]
    moduleAliasNames := ["@a/b", "@a"] }

/-- A table whose only alias has a custom resolver that throws `"boom"`. -/
def stC3 : ManagerState :=
  { mgrInit with
    moduleAliases := [("@a", Target.fn (fun _ _ _ => .thrown "boom"))]
    moduleAliasNames := ["@a"] }

/-- A table whose only alias has a custom resolver returning `"/q"`. -/
def stC3w : ManagerState :=
  { mgrInit with
    moduleAliases := [("@a", Target.fn (fun _ _ _ => FnRes.ret (JsVal.str "/q")))]
    moduleAliasNames := ["@a"] }

/-- A table holding one alias, as it stands before a reload attempt. -/
def stC5 : ManagerState :=
  { mgrInit with
    moduleAliases := [("@old", Target.str "/o")]
    moduleAliasNames := ["@old"] }

/-- A one-alias table used to exercise the resolution cache. -/
def stC6 : ManagerState :=
  { mgrInit with
    moduleAliases := [("@u", Target.str "/p")]
    moduleAliasNames := ["@u"] }

/-- A table whose only alias does not match the request `"lodash"`. -/
def stC8 : ManagerState :=
  { mgrInit with
    moduleAliases := [("@x", Target.str "/x")]
    moduleAliasNames := ["@x"] }

/-- A fixed cache entry used to exercise the store bound. -/
def entry0 : CacheEntry := ⟨CVal.bool true, 0⟩

/-- A full (1000-entry) cache store with pairwise-distinct keys. -/
def bigCache : List (String × CacheEntry) :=
  (List.range 1000).map (fun n => (akey n, entry0))

/-- 1000 further distinct keys, all different from `akey 0`. -/
def tailKeys : List String :=
  (List.range 1000).map (fun n => akey (n + 1))

/-! ### Association-list lemmas -/

theorem assocLookup_set_self {β : Type} (c : List (String × β)) (k : String) (v : β) :
    assocLookup (assocSet c k v) k = some v := by
  induction c with
  | nil => simp [assocSet, assocLookup]
  | cons p rest ih =>
    by_cases h : p.1 = k
    · simp [assocSet, h, assocLookup]
    · simpa [assocSet, h, assocLookup] using ih

theorem assocLookup_set_ne {β : Type} (c : List (String × β)) (k k' : String) (v : β)
    (h : k' ≠ k) : assocLookup (assocSet c k v) k' = assocLookup c k' := by
  induction c with
  | nil => simp [assocSet, assocLookup, Ne.symm h]
  | cons p rest ih =>
    by_cases hp : p.1 = k
    · subst hp
      simp [assocSet, assocLookup, Ne.symm h]
    · simp only [assocSet, hp, if_false, assocLookup]
      by_cases hp' : p.1 = k'
      · simp [hp']
      · simp [hp', ih]

theorem mem_keys_of_assocLookup_some {β : Type} (c : List (String × β)) (k : String)
    (v : β) (h : assocLookup c k = some v) : k ∈ c.map Prod.fst := by
  induction c with
  | nil => simp [assocLookup] at h
  | cons p rest ih =>
    by_cases hp : p.1 = k
    · simp [hp]
    · simp only [assocLookup, hp, if_false] at h
      simp [ih h]

theorem assocLookup_ne_none_of_mem_keys {β : Type} (c : List (String × β)) (k : String)
    (h : k ∈ c.map Prod.fst) : assocLookup c k ≠ none := by
  induction c with
  | nil => simp at h
  | cons p rest ih =>
    by_cases hp : p.1 = k
    · simp [assocLookup, hp]
    · rw [List.map_cons] at h
      have h' : k ∈ rest.map Prod.fst := by
        rcases List.mem_cons.mp h with h0 | h0
        · exact absurd h0.symm hp
        · exact h0
      simp only [assocLookup, hp, if_false]
      exact ih h'

theorem assocSet_of_lookup_none {β : Type} (c : List (String × β)) (k : String) (v : β)
    (h : assocLookup c k = none) : assocSet c k v = c ++ [(k, v)] := by
  induction c with
  | nil => simp [assocSet]
  | cons p rest ih =>
    by_cases hp : p.1 = k
    · simp [assocLookup, hp] at h
    · simp only [assocLookup, hp, if_false] at h
      simp [assocSet, hp, ih h]

theorem length_assocSet_of_lookup_some {β : Type} (c : List (String × β)) (k : String)
    (v w : β) (h : assocLookup c k = some w) :
    (assocSet c k v).length = c.length := by
  induction c with
  | nil => simp [assocLookup] at h
  | cons p rest ih =>
    by_cases hp : p.1 = k
    · simp [assocSet, hp]
    · simp only [assocLookup, hp, if_false] at h
      simp [assocSet, hp, ih h]

theorem assocLookup_append_of_none {β : Type} (c d : List (String × β)) (k : String)
    (h : assocLookup c k = none) : assocLookup (c ++ d) k = assocLookup d k := by
  induction c with
  | nil => simp
  | cons p rest ih =>
    by_cases hp : p.1 = k
    · simp [assocLookup, hp] at h
    · simp only [assocLookup, hp, if_false] at h
      simpa [assocLookup, hp] using ih h

theorem assocLookup_none_of_not_mem {β : Type} (c : List (String × β)) (k : String)
    (h : k ∉ c.map Prod.fst) : assocLookup c k = none := by
  induction c with
  | nil => rfl
  | cons p rest ih =>
    rw [List.map_cons] at h
    have h1 : p.1 ≠ k := by
      intro e
      exact h (by rw [← e]; exact List.mem_cons_self _ _)
    have h2 : k ∉ rest.map Prod.fst := fun m => h (List.mem_cons_of_mem _ m)
    simp [assocLookup, h1, ih h2]

theorem assocLookup_cons_none {β : Type} (p : String × β) (rest : List (String × β))
    (k : String) (h : assocLookup (p :: rest) k = none) :
    p.1 ≠ k ∧ assocLookup rest k = none := by
  by_cases hp : p.1 = k
  · simp [assocLookup, hp] at h
  · simpa [assocLookup, hp] using h

theorem assocDelete_cons_self {β : Type} (p : String × β) (rest : List (String × β)) :
    assocDelete (p :: rest) p.1 = rest := by
  simp [assocDelete]

theorem assocDelete_sublist {β : Type} (c : List (String × β)) (k : String) :
    (assocDelete c k).Sublist c := by
  induction c with
  | nil => simp [assocDelete]
  | cons p rest ih =>
    by_cases hp : p.1 = k
    · rw [assocDelete, if_pos hp]
      exact List.sublist_cons_self p rest
    · simpa [assocDelete, hp] using ih.cons₂ p

theorem assocLookup_delete_some {β : Type} (c : List (String × β)) (k0 k : String) (v : β)
    (hn : (c.map Prod.fst).Nodup)
    (h : assocLookup (assocDelete c k0) k = some v) : assocLookup c k = some v := by
  induction c with
  | nil => simp [assocDelete, assocLookup] at h
  | cons p rest ih =>
    simp only [List.map_cons, List.nodup_cons] at hn
    by_cases hp : p.1 = k0
    · simp only [assocDelete, hp, if_true] at h
      by_cases hk : p.1 = k
      · exfalso
        apply hn.1
        subst hk
        exact mem_keys_of_assocLookup_some rest p.1 v h
      · simpa [assocLookup, hk] using h
    · simp only [assocDelete, hp, if_false] at h
      by_cases hk : p.1 = k
      · simpa [assocLookup, hk] using h
      · simp only [assocLookup, hk, if_false] at h ⊢
        exact ih hn.2 h

theorem map_fst_assocSet_of_some {β : Type} (c : List (String × β)) (k : String)
    (v w : β) (h : assocLookup c k = some w) :
    (assocSet c k v).map Prod.fst = c.map Prod.fst := by
  induction c with
  | nil => simp [assocLookup] at h
  | cons p rest ih =>
    by_cases hp : p.1 = k
    · simp [assocSet, hp]
    · simp only [assocLookup, hp, if_false] at h
      simp [assocSet, hp, ih h]

theorem nodup_map_fst_assocSet {β : Type} (c : List (String × β)) (k : String) (v : β)
    (hn : (c.map Prod.fst).Nodup) : ((assocSet c k v).map Prod.fst).Nodup := by
  cases h : assocLookup c k with
  | some w => rw [map_fst_assocSet_of_some c k v w h]; exact hn
  | none =>
    rw [assocSet_of_lookup_none c k v h]
    have hk : k ∉ c.map Prod.fst := by
      intro hmem
      exact assocLookup_ne_none_of_mem_keys c k hmem h
    simpa [List.nodup_append] using And.intro hn (by simpa using hk)

theorem not_mem_keys_of_lookup_none {β : Type} (c : List (String × β)) (k : String)
    (h : assocLookup c k = none) : k ∉ c.map Prod.fst := by
  intro hmem
  exact assocLookup_ne_none_of_mem_keys c k hmem h

theorem assocLookup_append_left {β : Type} (c d : List (String × β)) (k : String) (v : β)
    (h : assocLookup c k = some v) : assocLookup (c ++ d) k = some v := by
  induction c with
  | nil => simp [assocLookup] at h
  | cons p rest ih =>
    by_cases hp : p.1 = k
    · simpa [assocLookup, hp] using h
    · simp only [assocLookup, hp, if_false] at h
      simpa [assocLookup, hp] using ih h

theorem nodup_map_fst_assocDelete {β : Type} (c : List (String × β)) (k : String)
    (hn : (c.map Prod.fst).Nodup) : ((assocDelete c k).map Prod.fst).Nodup :=
  hn.sublist ((assocDelete_sublist c k).map Prod.fst)

/-! ### `cachePut` lemmas -/

theorem cachePut_of_lookup_some (c : List (String × CacheEntry)) (k : String)
    (e w : CacheEntry) (h : c.length ≤ 1000) (hl : assocLookup c k = some w) :
    cachePut c k e = assocSet c k e := by
  have hlen := length_assocSet_of_lookup_some c k e w hl
  simp only [cachePut, hlen]
  rw [if_neg (by omega)]

theorem cachePut_of_fresh_small (c : List (String × CacheEntry)) (k : String)
    (e : CacheEntry) (hl : assocLookup c k = none) (h : c.length < 1000) :
    cachePut c k e = c ++ [(k, e)] := by
  have hset := assocSet_of_lookup_none c k e hl
  simp only [cachePut, hset]
  rw [if_neg (by simp; omega)]

theorem cachePut_of_fresh_full (c : List (String × CacheEntry)) (k : String)
    (e : CacheEntry) (hl : assocLookup c k = none) (h : c.length = 1000) :
    cachePut c k e = c.tail ++ [(k, e)] := by
  have hset := assocSet_of_lookup_none c k e hl
  obtain ⟨p, rest, rfl⟩ : ∃ p rest, c = p :: rest := by
    cases c with
    | nil => simp at h
    | cons p rest => exact ⟨p, rest, rfl⟩
  simp only [cachePut, hset]
  rw [if_pos (by simp at h ⊢; omega)]
  simp only [List.cons_append, List.head?_cons]
  rw [assocDelete_cons_self p (rest ++ [(k, e)])]
  rfl

theorem length_cachePut_le (c : List (String × CacheEntry)) (k : String) (e : CacheEntry)
    (h : c.length ≤ 1000) : (cachePut c k e).length ≤ 1000 := by
  cases hl : assocLookup c k with
  | some w =>
    rw [cachePut_of_lookup_some c k e w h hl]
    rw [length_assocSet_of_lookup_some c k e w hl]
    exact h
  | none =>
    rcases Nat.lt_or_ge c.length 1000 with h1 | h1
    · rw [cachePut_of_fresh_small c k e hl h1]
      simp
      omega
    · have h2 : c.length = 1000 := Nat.le_antisymm h h1
      rw [cachePut_of_fresh_full c k e hl h2]
      cases c with
      | nil => simp at h2
      | cons p rest =>
        simp at h2 ⊢
        omega

theorem assocLookup_cachePut_self (c : List (String × CacheEntry)) (k : String)
    (e : CacheEntry) (h : c.length ≤ 1000) :
    assocLookup (cachePut c k e) k = some e := by
  cases hl : assocLookup c k with
  | some w =>
    rw [cachePut_of_lookup_some c k e w h hl]
    exact assocLookup_set_self c k e
  | none =>
    rcases Nat.lt_or_ge c.length 1000 with h1 | h1
    · rw [cachePut_of_fresh_small c k e hl h1]
      rw [assocLookup_append_of_none c _ k hl]
      simp [assocLookup]
    · have h2 : c.length = 1000 := Nat.le_antisymm h h1
      rw [cachePut_of_fresh_full c k e hl h2]
      cases c with
      | nil => simp at h2
      | cons p rest =>
        have := assocLookup_cons_none p rest k hl
        rw [List.tail_cons, assocLookup_append_of_none rest _ k this.2]
        simp [assocLookup]

theorem assocLookup_cachePut_provenance (c : List (String × CacheEntry)) (k k' : String)
    (e e' : CacheEntry) (hn : (c.map Prod.fst).Nodup) (h : c.length ≤ 1000)
    (hl : assocLookup (cachePut c k e) k' = some e') :
    (k' = k ∧ e' = e) ∨ assocLookup c k' = some e' := by
  by_cases hk : k' = k
  · subst hk
    rw [assocLookup_cachePut_self c k' e h] at hl
    exact Or.inl ⟨rfl, (Option.some_injective _ hl).symm⟩
  · right
    cases hl0 : assocLookup c k with
    | some w =>
      rw [cachePut_of_lookup_some c k e w h hl0] at hl
      rwa [assocLookup_set_ne c k k' e hk] at hl
    | none =>
      rcases Nat.lt_or_ge c.length 1000 with h1 | h1
      · rw [cachePut_of_fresh_small c k e hl0 h1] at hl
        cases hc : assocLookup c k' with
        | some w =>
          rw [assocLookup_append_left c _ k' w hc] at hl
          exact hl
        | none =>
          rw [assocLookup_append_of_none c _ k' hc] at hl
          simp [assocLookup, Ne.symm hk] at hl
      · have h2 : c.length = 1000 := Nat.le_antisymm h h1
        rw [cachePut_of_fresh_full c k e hl0 h2] at hl
        cases c with
        | nil => simp at h2
        | cons p rest =>
          rw [List.tail_cons] at hl
          simp only [List.map_cons, List.nodup_cons] at hn
          cases hc : assocLookup rest k' with
          | some w =>
            rw [assocLookup_append_left rest _ k' w hc] at hl
            have hpk : p.1 ≠ k' := by
              intro e0
              exact hn.1 (e0 ▸ mem_keys_of_assocLookup_some rest k' w hc)
            simp [assocLookup, hpk, hc, hl]
          | none =>
            rw [assocLookup_append_of_none rest _ k' hc] at hl
            simp [assocLookup, Ne.symm hk] at hl

theorem nodup_map_fst_cachePut (c : List (String × CacheEntry)) (k : String)
    (e : CacheEntry) (hn : (c.map Prod.fst).Nodup) (h : c.length ≤ 1000) :
    ((cachePut c k e).map Prod.fst).Nodup := by
  cases hl : assocLookup c k with
  | some w =>
    rw [cachePut_of_lookup_some c k e w h hl]
    exact nodup_map_fst_assocSet c k e hn
  | none =>
    have hk := not_mem_keys_of_lookup_none c k hl
    rcases Nat.lt_or_ge c.length 1000 with h1 | h1
    · rw [cachePut_of_fresh_small c k e hl h1]
      simpa [List.nodup_append] using And.intro hn (by simpa using hk)
    · have h2 : c.length = 1000 := Nat.le_antisymm h h1
      rw [cachePut_of_fresh_full c k e hl h2]
      cases c with
      | nil => simp at h2
      | cons p rest =>
        simp only [List.map_cons, List.nodup_cons] at hn
        rw [List.tail_cons]
        have hk' : k ∉ rest.map Prod.fst := by
          intro m
          exact hk (by simp [m])
        simpa [List.nodup_append] using And.intro hn.2 (by simpa using hk')

/-! ### `putKeys` lemmas (FIFO bound) -/

theorem putKeys_append (e : CacheEntry) (l1 l2 : List String) :
    ∀ c, putKeys c e (l1 ++ l2) = putKeys (putKeys c e l1) e l2 := by
  induction l1 with
  | nil => intro c; rfl
  | cons k ks ih => intro c; simpa [putKeys] using ih (cachePut c k e)

theorem putKeys_fill (e : CacheEntry) :
    ∀ (ks : List String) (c : List (String × CacheEntry)), ks.Nodup →
      (∀ k ∈ ks, assocLookup c k = none) → c.length + ks.length ≤ 1000 →
      putKeys c e ks = c ++ ks.map (fun k => (k, e)) := by
  intro ks
  induction ks with
  | nil => intro c _ _ _; simp [putKeys]
  | cons k ks ih =>
    intro c hn hfresh hlen
    rw [List.length_cons] at hlen
    have hk : assocLookup c k = none := hfresh k (List.mem_cons_self _ _)
    have hsmall : c.length < 1000 := by omega
    rw [List.nodup_cons] at hn
    rw [putKeys, cachePut_of_fresh_small c k e hk hsmall]
    rw [ih (c ++ [(k, e)]) hn.2 ?fresh (by simp; omega)]
    · simp
    case fresh =>
      intro k' hk'
      rw [assocLookup_append_of_none c _ k' (hfresh k' (List.mem_cons_of_mem _ hk'))]
      have : k ≠ k' := fun h => hn.1 (h ▸ hk')
      simp [assocLookup, this]

theorem putKeys_overflow (e : CacheEntry) (k : String) (ks : List String)
    (hn : (k :: ks).Nodup) (hlen : (k :: ks).length = 1001) :
    (putKeys [] e (k :: ks)).length = 1000 ∧
      assocLookup (putKeys [] e (k :: ks)) k = none := by
  rw [List.length_cons] at hlen
  have hlen' : ks.length = 1000 := by omega
  have hne : ks ≠ [] := by
    intro h
    rw [h] at hlen'
    simp at hlen'
  obtain ⟨front, klast, hsplit⟩ : ∃ front klast, ks = front ++ [klast] :=
    ⟨ks.dropLast, ks.getLast hne, (List.dropLast_append_getLast hne).symm⟩
  have hfl : front.length = 999 := by
    have := hlen'
    rw [hsplit] at this
    simp at this
    omega
  rw [List.nodup_cons] at hn
  have hnodup2 : (front ++ [klast]).Nodup := hsplit ▸ hn.2
  rw [List.nodup_append] at hnodup2
  have hkf : k ∉ front := fun h => hn.1 (hsplit ▸ List.mem_append_left _ h)
  have hkl : k ≠ klast := fun h => hn.1 (hsplit ▸ List.mem_append_right _ (h ▸ List.mem_cons_self _ _))
  have hlf : klast ∉ front := by
    intro h
    exact hnodup2.2.2 h (List.mem_cons_self _ _)
  -- first insertion into the empty store
  have h0 : putKeys [] e (k :: ks) = putKeys [(k, e)] e ks := by
    rw [putKeys, cachePut_of_fresh_small [] k e rfl (by simp)]
    rfl
  -- the next 999 insertions fill the store to exactly 1000 entries
  have h1 : putKeys [(k, e)] e front = (k, e) :: front.map (fun k' => (k', e)) := by
    rw [putKeys_fill e front [(k, e)] hnodup2.1 ?fresh (by simp [hfl])]
    · rfl
    case fresh =>
      intro k' hk'
      have : k ≠ k' := fun h => hkf (h ▸ hk')
      simp [assocLookup, this]
  -- the 1001st insertion evicts the first key
  have hfull : ((k, e) :: front.map (fun k' => (k', e))).length = 1000 := by
    simp [hfl]
  have hfreshlast :
      assocLookup ((k, e) :: front.map (fun k' => (k', e))) klast = none := by
    apply assocLookup_none_of_not_mem
    intro h
    have h' : klast = k ∨ klast ∈ front := by simpa using h
    rcases h' with h0 | h0
    · exact hkl h0.symm
    · exact hlf h0
  have h2 : putKeys [] e (k :: ks) =
      front.map (fun k' => (k', e)) ++ [(klast, e)] := by
    rw [h0, hsplit, putKeys_append, h1]
    show cachePut ((k, e) :: front.map (fun k' => (k', e))) klast e = _
    rw [cachePut_of_fresh_full _ klast e hfreshlast hfull]
    rfl
  constructor
  · rw [h2]
    simp [hfl]
  · rw [h2]
    apply assocLookup_none_of_not_mem
    intro h
    have h' : k ∈ front ∨ k = klast := by simpa using h
    rcases h' with h0 | h0
    · exact hkf h0
    · exact hkl h0

/-! ### Sorting and selection lemmas (longest-first policy) -/

theorem mem_insertDesc (a x : String) (l : List String) :
    x ∈ insertDesc a l ↔ x = a ∨ x ∈ l := by
  induction l with
  | nil => simp [insertDesc]
  | cons b bs ih =>
    by_cases h : b.length ≤ a.length
    · simp [insertDesc, h]
    · simp only [insertDesc, h, if_false, List.mem_cons, ih]
      tauto

theorem mem_sortDesc (x : String) (l : List String) : x ∈ sortDesc l ↔ x ∈ l := by
  induction l with
  | nil => simp [sortDesc]
  | cons a rest ih => simp [sortDesc, mem_insertDesc, ih]

theorem pairwise_insertDesc (a : String) (l : List String)
    (h : l.Pairwise (fun x y => y.length ≤ x.length)) :
    (insertDesc a l).Pairwise (fun x y => y.length ≤ x.length) := by
  induction l with
  | nil => simp [insertDesc]
  | cons b bs ih =>
    rw [List.pairwise_cons] at h
    by_cases hb : b.length ≤ a.length
    · rw [insertDesc, if_pos hb, List.pairwise_cons]
      refine ⟨?_, List.pairwise_cons.mpr h⟩
      intro y hy
      rcases List.mem_cons.mp hy with rfl | hy
      · exact hb
      · exact le_trans (h.1 y hy) hb
    · rw [insertDesc, if_neg hb, List.pairwise_cons]
      refine ⟨?_, ih h.2⟩
      intro y hy
      rcases (mem_insertDesc a y bs).mp hy with rfl | hy
      · omega
      · exact h.1 y hy

theorem pairwise_sortDesc (l : List String) :
    (sortDesc l).Pairwise (fun x y => y.length ≤ x.length) := by
  induction l with
  | nil => simp [sortDesc]
  | cons a rest ih => exact pairwise_insertDesc a (sortDesc rest) ih

theorem firstMatch_spec (req : String) (l : List String) (a : String)
    (h : firstMatch req l = some a) :
    a ∈ l ∧ isPathMatchesAliasPure req a = true := by
  induction l with
  | nil => simp [firstMatch] at h
  | cons b bs ih =>
    by_cases hb : isPathMatchesAliasPure req b
    · rw [firstMatch, if_pos hb] at h
      cases h
      exact ⟨List.mem_cons_self _ _, hb⟩
    · rw [firstMatch, if_neg hb] at h
      obtain ⟨hm, hp⟩ := ih h
      exact ⟨List.mem_cons_of_mem _ hm, hp⟩

theorem firstMatch_isSome_of_mem (req : String) (l : List String) (b : String)
    (hb : b ∈ l) (hp : isPathMatchesAliasPure req b = true) :
    ∃ a, firstMatch req l = some a := by
  induction l with
  | nil => simp at hb
  | cons x xs ih =>
    by_cases hx : isPathMatchesAliasPure req x
    · exact ⟨x, by rw [firstMatch, if_pos hx]⟩
    · rcases List.mem_cons.mp hb with rfl | hb'
      · exact absurd hp (by simpa using hx)
      · obtain ⟨a, ha⟩ := ih hb'
        exact ⟨a, by rw [firstMatch, if_neg hx]; exact ha⟩

theorem firstMatch_maximal (req : String) (l : List String) (a : String)
    (hs : l.Pairwise (fun x y => y.length ≤ x.length))
    (h : firstMatch req l = some a) :
    ∀ b ∈ l, isPathMatchesAliasPure req b = true → b.length ≤ a.length := by
  induction l with
  | nil => simp [firstMatch] at h
  | cons x xs ih =>
    rw [List.pairwise_cons] at hs
    intro b hb hpb
    by_cases hx : isPathMatchesAliasPure req x
    · rw [firstMatch, if_pos hx] at h
      cases h
      rcases List.mem_cons.mp hb with rfl | hb'
      · exact le_refl _
      · exact hs.1 b hb'
    · rw [firstMatch, if_neg hx] at h
      rcases List.mem_cons.mp hb with rfl | hb'
      · exact absurd hpb (by simpa using hx)
      · exact ih hs.2 h b hb' hpb

/-! ### Cache-key disjointness -/

theorem matchKey_inj (req x y : String) (h : matchKey req x = matchKey req y) : x = y := by
  have hd : req.data ++ ':' :: x.data = req.data ++ ':' :: y.data :=
    congrArg String.data h
  have := List.append_cancel_left hd
  rw [List.cons.injEq] at this
  exact String.ext this.2

/-! ### Behaviour of the cache operations -/

theorem getCached_none (st : ManagerState) (now : Nat) (key : String)
    (h : assocLookup st.performanceCache key = none) :
    getCachedResolution st now key = (none, st) := by
  simp [getCachedResolution, h]

theorem getCached_stale (st : ManagerState) (now : Nat) (key : String) (e : CacheEntry)
    (h : assocLookup st.performanceCache key = some e)
    (hs : ¬ now - e.timestamp < 5000) :
    getCachedResolution st now key = (none, st) := by
  simp [getCachedResolution, h, hs]

theorem getCached_fresh (st : ManagerState) (now : Nat) (key : String) (e : CacheEntry)
    (h : assocLookup st.performanceCache key = some e)
    (hf : now - e.timestamp < 5000) :
    getCachedResolution st now key =
      (some e.value,
        { st with stats := { st.stats with cacheHits := st.stats.cacheHits + 1 } }) := by
  simp [getCachedResolution, h, hf]

theorem setCachedResolution_spec (st : ManagerState) (now : Nat) (key : String) (v : CVal)
    (hok : cacheOkP st.performanceCache) :
    (setCachedResolution st now key v).moduleAliases = st.moduleAliases ∧
    (setCachedResolution st now key v).moduleAliasNames = st.moduleAliasNames ∧
    (setCachedResolution st now key v).modulePaths = st.modulePaths ∧
    (setCachedResolution st now key v).stats = st.stats ∧
    cacheOkP (setCachedResolution st now key v).performanceCache ∧
    assocLookup (setCachedResolution st now key v).performanceCache key =
      some ⟨v, now⟩ ∧
    ∀ k e', assocLookup (setCachedResolution st now key v).performanceCache k = some e' →
      assocLookup st.performanceCache k = some e' ∨ (k = key ∧ e' = ⟨v, now⟩) := by
  obtain ⟨h1, h2⟩ := hok
  refine ⟨rfl, rfl, rfl, rfl,
    ⟨length_cachePut_le _ _ _ h1, nodup_map_fst_cachePut _ _ _ h2 h1⟩,
    assocLookup_cachePut_self _ _ _ h1, ?_⟩
  intro k e' hl
  rcases assocLookup_cachePut_provenance _ key k ⟨v, now⟩ e' h2 h1 hl with ⟨hk, he⟩ | h
  · exact Or.inr ⟨hk, he⟩
  · exact Or.inl h

/-! ### Behaviour of the cached matcher -/

theorem isPathMatchesAlias_spec (st : ManagerState) (now : Nat) (req a : String)
    (hok : cacheOkP st.performanceCache)
    (hcons : ∀ e, assocLookup st.performanceCache (matchKey req a) = some e →
      e.value = CVal.bool (isPathMatchesAliasPure req a)) :
    (isPathMatchesAlias st now req a).1 = isPathMatchesAliasPure req a ∧
    (isPathMatchesAlias st now req a).2.moduleAliases = st.moduleAliases ∧
    (isPathMatchesAlias st now req a).2.moduleAliasNames = st.moduleAliasNames ∧
    (isPathMatchesAlias st now req a).2.modulePaths = st.modulePaths ∧
    cacheOkP (isPathMatchesAlias st now req a).2.performanceCache ∧
    ∀ k e', assocLookup (isPathMatchesAlias st now req a).2.performanceCache k = some e' →
      assocLookup st.performanceCache k = some e' ∨
        (k = matchKey req a ∧ e'.value = CVal.bool (isPathMatchesAliasPure req a)) := by
  cases hl : assocLookup st.performanceCache (matchKey req a) with
  | some e =>
    by_cases hf : now - e.timestamp < 5000
    · have hg := getCached_fresh st now (matchKey req a) e hl hf
      simp only [isPathMatchesAlias, hg]
      refine ⟨?_, by trivial, by trivial, by trivial, by exact hok, ?_⟩
      · rw [hcons e hl]
        rfl
      · intro k e' h
        exact Or.inl h
    · have hg := getCached_stale st now (matchKey req a) e hl hf
      simp only [isPathMatchesAlias, hg]
      obtain ⟨hs1, hs2, hs3, hs4, hs5, hs6, hs7⟩ :=
        setCachedResolution_spec st now (matchKey req a)
          (.bool (isPathMatchesAliasPure req a)) hok
      refine ⟨by trivial, by exact hs1, by exact hs2, by exact hs3, by exact hs5, ?_⟩
      intro k e' h
      rcases hs7 k e' h with h0 | ⟨h0, h1⟩
      · exact Or.inl h0
      · exact Or.inr ⟨h0, by rw [h1]⟩
  | none =>
    have hg := getCached_none st now (matchKey req a) hl
    simp only [isPathMatchesAlias, hg]
    obtain ⟨hs1, hs2, hs3, hs4, hs5, hs6, hs7⟩ :=
      setCachedResolution_spec st now (matchKey req a)
        (.bool (isPathMatchesAliasPure req a)) hok
    refine ⟨by trivial, by exact hs1, by exact hs2, by exact hs3, by exact hs5, ?_⟩
    intro k e' h
    rcases hs7 k e' h with h0 | ⟨h0, h1⟩
    · exact Or.inl h0
    · exact Or.inr ⟨h0, by rw [h1]⟩

/-! ### Behaviour of the matching loop -/

theorem resolveLoop_spec (now : Nat) (req : String) (parent : Option String)
    (cwd : String) :
    ∀ (l : List String) (st : ManagerState),
      cacheOkP st.performanceCache →
      (∀ a ∈ l, ∀ e, assocLookup st.performanceCache (matchKey req a) = some e →
        e.value = CVal.bool (isPathMatchesAliasPure req a)) →
      (resolveLoop st now req parent cwd l).1 =
        (match firstMatch req l with
         | none => Except.ok req
         | some a => pureApply st.moduleAliases req parent cwd a) ∧
      (resolveLoop st now req parent cwd l).2.moduleAliases = st.moduleAliases ∧
      (resolveLoop st now req parent cwd l).2.moduleAliasNames = st.moduleAliasNames ∧
      (resolveLoop st now req parent cwd l).2.modulePaths = st.modulePaths ∧
      cacheOkP (resolveLoop st now req parent cwd l).2.performanceCache ∧
      ∀ k e', assocLookup (resolveLoop st now req parent cwd l).2.performanceCache k =
          some e' →
        assocLookup st.performanceCache k = some e' ∨
          ∃ a, a ∈ l ∧ k = matchKey req a ∧
            e'.value = CVal.bool (isPathMatchesAliasPure req a) := by
  intro l
  induction l with
  | nil =>
    intro st hok hcons
    simp only [resolveLoop, firstMatch]
    exact ⟨by trivial, by trivial, by trivial, by trivial, by exact hok,
      fun k e' h => Or.inl h⟩
  | cons a rest ih =>
    intro st hok hcons
    obtain ⟨hm1, hm2, hm3, hm4, hm5, hm6⟩ :=
      isPathMatchesAlias_spec st now req a hok (hcons a (List.mem_cons_self _ _))
    cases hp : isPathMatchesAlias st now req a with
    | mk m st1 =>
      rw [hp] at hm1 hm2 hm3 hm4 hm5 hm6
      simp only at hm1 hm2 hm3 hm4 hm5 hm6
      subst hm1
      simp only [resolveLoop, hp]
      by_cases hmatch : isPathMatchesAliasPure req a = true
      · simp only [hmatch, if_true, firstMatch]
        refine ⟨?_, by exact hm2, by exact hm3, by exact hm4, by exact hm5, ?_⟩
        · show pureApply st1.moduleAliases req parent cwd a = _
          rw [hm2]
        · intro k e' h
          rcases hm6 k e' h with h0 | ⟨h0, h1⟩
          · exact Or.inl h0
          · exact Or.inr ⟨a, List.mem_cons_self _ _, h0, h1⟩
      · rw [Bool.not_eq_true] at hmatch
        simp only [hmatch, if_false, Bool.false_eq_true]
        have hcons' : ∀ a' ∈ rest, ∀ e,
            assocLookup st1.performanceCache (matchKey req a') = some e →
            e.value = CVal.bool (isPathMatchesAliasPure req a') := by
          intro a' ha' e he
          rcases hm6 (matchKey req a') e he with h0 | ⟨h0, h1⟩
          · exact hcons a' (List.mem_cons_of_mem _ ha') e h0
          · have ha : a' = a := matchKey_inj req a' a h0
            rw [ha, h1]
        obtain ⟨ih1, ih2, ih3, ih4, ih5, ih6⟩ := ih st1 hm5 hcons'
        rw [hm2] at ih1 ih2
        rw [hm3] at ih3
        rw [hm4] at ih4
        refine ⟨?_, ih2, ih3, ih4, ih5, ?_⟩
        · rw [ih1, firstMatch, if_neg (by simp [hmatch])]
        · intro k e' h
          rcases ih6 k e' h with h0 | ⟨b, hb, hk, hv⟩
          · rcases hm6 k e' h0 with h1 | ⟨h1, h2⟩
            · exact Or.inl h1
            · exact Or.inr ⟨a, List.mem_cons_self _ _, h1, h2⟩
          · exact Or.inr ⟨b, List.mem_cons_of_mem _ hb, hk, hv⟩

/-! ### Behaviour of `resolveAlias` -/

theorem resolveAlias_hit (st : ManagerState) (now : Nat) (req : String)
    (parent : Option String) (cwd : String) (e : CacheEntry)
    (hl : assocLookup st.performanceCache (resolveKey req parent) = some e)
    (hf : now - e.timestamp < 5000) :
    resolveAlias st now req parent cwd =
      (Except.ok e.value,
        { st with stats :=
          { resolutions := st.stats.resolutions + 1
            cacheHits := st.stats.cacheHits + 1
            aliasMatches := st.stats.aliasMatches } }) := by
  have hg := getCached_fresh
    { st with stats := { st.stats with resolutions := st.stats.resolutions + 1 } }
    now (resolveKey req parent) e hl hf
  simp only [resolveAlias, hg]

theorem resolveAlias_miss_spec (st : ManagerState) (now : Nat) (req : String)
    (parent : Option String) (cwd : String)
    (hok : cacheOkP st.performanceCache)
    (hmiss : ∀ e, assocLookup st.performanceCache (resolveKey req parent) = some e →
      ¬ now - e.timestamp < 5000)
    (hcons : ∀ a ∈ st.moduleAliasNames, ∀ e,
      assocLookup st.performanceCache (matchKey req a) = some e →
      e.value = CVal.bool (isPathMatchesAliasPure req a)) :
    (resolveAlias st now req parent cwd).1 =
      (pureResolveStr st req parent cwd).map CVal.str ∧
    (resolveAlias st now req parent cwd).2.moduleAliases = st.moduleAliases ∧
    (resolveAlias st now req parent cwd).2.moduleAliasNames = st.moduleAliasNames ∧
    (resolveAlias st now req parent cwd).2.modulePaths = st.modulePaths ∧
    cacheOkP (resolveAlias st now req parent cwd).2.performanceCache ∧
    (∀ r, pureResolveStr st req parent cwd = .ok r →
      assocLookup (resolveAlias st now req parent cwd).2.performanceCache
        (resolveKey req parent) = some ⟨.str r, now⟩) ∧
    ∀ k e', assocLookup (resolveAlias st now req parent cwd).2.performanceCache k =
        some e' →
      assocLookup st.performanceCache k = some e' ∨
        (∃ a, a ∈ st.moduleAliasNames ∧ k = matchKey req a ∧
          e'.value = CVal.bool (isPathMatchesAliasPure req a)) ∨
        (k = resolveKey req parent ∧
          ∃ r, pureResolveStr st req parent cwd = .ok r ∧ e' = ⟨.str r, now⟩) := by
  have st0eq :
      ({ st with stats :=
        { st.stats with resolutions := st.stats.resolutions + 1 } } :
          ManagerState).performanceCache = st.performanceCache := rfl
  have hcons' : ∀ a ∈ sortDesc st.moduleAliasNames, ∀ e,
      assocLookup st.performanceCache (matchKey req a) = some e →
      e.value = CVal.bool (isPathMatchesAliasPure req a) := by
    intro a ha
    exact hcons a ((mem_sortDesc a st.moduleAliasNames).mp ha)
  obtain ⟨ih1, ih2, ih3, ih4, ih5, ih6⟩ :=
    resolveLoop_spec now req parent cwd (sortDesc st.moduleAliasNames)
      { st with stats := { st.stats with resolutions := st.stats.resolutions + 1 } }
      hok hcons'
  have hpure : (resolveLoop
      { st with stats := { st.stats with resolutions := st.stats.resolutions + 1 } }
      now req parent cwd (sortDesc st.moduleAliasNames)).1 =
      pureResolveStr st req parent cwd := by
    rw [ih1]
    simp only [pureResolveStr, chosenAlias]
  have hg : getCachedResolution
      { st with stats := { st.stats with resolutions := st.stats.resolutions + 1 } }
      now (resolveKey req parent) =
      (none, { st with stats :=
        { st.stats with resolutions := st.stats.resolutions + 1 } }) := by
    cases hl : assocLookup st.performanceCache (resolveKey req parent) with
    | some e => exact getCached_stale _ now _ e hl (hmiss e hl)
    | none => exact getCached_none _ now _ hl
  cases hloop : resolveLoop
      { st with stats := { st.stats with resolutions := st.stats.resolutions + 1 } }
      now req parent cwd (sortDesc st.moduleAliasNames) with
  | mk res st2 =>
    rw [hloop] at hpure ih2 ih3 ih4 ih5 ih6
    simp only at hpure ih2 ih3 ih4 ih5 ih6
    cases res with
    | error e0 =>
      simp only [resolveAlias, hg, hloop]
      refine ⟨?_, by exact ih2, by exact ih3, by exact ih4, by exact ih5, ?_, ?_⟩
      · rw [← hpure]
        rfl
      · intro r hr
        rw [← hpure] at hr
        exact absurd hr (by simp)
      · intro k e' h
        rcases ih6 k e' h with h0 | ⟨a, ha, hk, hv⟩
        · exact Or.inl h0
        · exact Or.inr (Or.inl ⟨a, (mem_sortDesc a st.moduleAliasNames).mp ha, hk, hv⟩)
    | ok r =>
      simp only [resolveAlias, hg, hloop]
      obtain ⟨hs1, hs2, hs3, hs4, hs5, hs6, hs7⟩ :=
        setCachedResolution_spec st2 now (resolveKey req parent) (.str r) ih5
      refine ⟨?_, by rw [hs1]; exact ih2, by rw [hs2]; exact ih3,
        by rw [hs3]; exact ih4, by exact hs5, ?_, ?_⟩
      · rw [← hpure]
        rfl
      · intro r' hr'
        rw [← hpure] at hr'
        have : r' = r := by
          have h0 : r = r' := by simpa using hr'
          exact h0.symm
        rw [this]
        exact hs6
      · intro k e' h
        rcases hs7 k e' h with h0 | ⟨h0, h1⟩
        · rcases ih6 k e' h0 with h2 | ⟨a, ha, hk, hv⟩
          · exact Or.inl h2
          · exact Or.inr (Or.inl ⟨a, (mem_sortDesc a st.moduleAliasNames).mp ha, hk, hv⟩)
        · exact Or.inr (Or.inr ⟨h0, r, hpure.symm, h1⟩)

/-! ### Helper lemmas for the claims -/

theorem cacheOkP_nil : cacheOkP [] := ⟨by simp, by simp⟩

theorem resolve_on_empty_cache (st : ManagerState) (now : Nat) (req : String)
    (parent : Option String) (cwd : String) (hc : st.performanceCache = []) :
    (resolveAlias st now req parent cwd).1 =
      (pureResolveStr st req parent cwd).map CVal.str := by
  have hok : cacheOkP st.performanceCache := by rw [hc]; exact cacheOkP_nil
  have hmiss : ∀ e, assocLookup st.performanceCache (resolveKey req parent) = some e →
      ¬ now - e.timestamp < 5000 := by
    intro e he
    rw [hc] at he
    simp [assocLookup] at he
  have hcons : ∀ a ∈ st.moduleAliasNames, ∀ e,
      assocLookup st.performanceCache (matchKey req a) = some e →
      e.value = CVal.bool (isPathMatchesAliasPure req a) := by
    intro a _ e he
    rw [hc] at he
    simp [assocLookup] at he
  exact (resolveAlias_miss_spec st now req parent cwd hok hmiss hcons).1

theorem firstMatch_none (req : String) (l : List String)
    (h : ∀ a ∈ l, isPathMatchesAliasPure req a = false) : firstMatch req l = none := by
  induction l with
  | nil => rfl
  | cons a rest ih =>
    rw [firstMatch, if_neg (by simp [h a (List.mem_cons_self _ _)])]
    exact ih (fun b hb => h b (List.mem_cons_of_mem _ hb))

theorem addAlias_valid (st : ManagerState) (a : String) (t : JsIn)
    (ha : a ≠ "") (ht : validTarget t = true) :
    (addAlias st (.str a) t).1 = Except.ok () ∧
    (addAlias st (.str a) t).2.performanceCache = [] ∧
    (addAlias st (.str a) t).2.modulePaths = st.modulePaths ∧
    (addAlias st (.str a) t).2.moduleAliasNames =
      ((addAlias st (.str a) t).2.moduleAliases).map Prod.fst := by
  cases t with
  | str s =>
    have hs : s ≠ "" := by simpa [validTarget] using ht
    simp [addAlias, ha, hs]
  | fn f => simp [addAlias, ha]
  | other => simp [validTarget] at ht

theorem addAlias_valid_table (st : ManagerState) (a : String) (s : String)
    (ha : a ≠ "") (hs : s ≠ "") :
    (addAlias st (.str a) (.str s)).2.moduleAliases =
      assocSet st.moduleAliases a (Target.str (nodeNormalize s)) := by
  simp [addAlias, ha, hs]

theorem addAlias_invalid (st : ManagerState) (a : String) (t : JsIn)
    (h : a = "" ∨ validTarget t = false) :
    addAlias st (.str a) t = (Except.error (addErrMsg a t), st) := by
  rcases h with rfl | ht
  · cases t <;> simp [addAlias, addErrMsg]
  · by_cases ha : a = ""
    · subst ha
      cases t <;> simp [addAlias, addErrMsg]
    · cases t with
      | str s =>
        have hs : s = "" := by simpa [validTarget] using ht
        subst hs
        simp [addAlias, addErrMsg, ha, validTarget]
      | fn f => simp [validTarget] at ht
      | other => simp [addAlias, addErrMsg, ha, validTarget]

theorem addAlias_error_state (st : ManagerState) (a t : JsIn) (e : String)
    (h : (addAlias st a t).1 = Except.error e) : (addAlias st a t).2 = st := by
  cases a with
  | str name =>
    by_cases hn : name = ""
    · simp [addAlias, hn]
    · cases t with
      | str s =>
        by_cases hs : s = ""
        · simp [addAlias, hn, hs]
        · simp [addAlias, hn, hs] at h
      | fn f => simp [addAlias, hn] at h
      | other => simp [addAlias, hn]
  | fn f => simp [addAlias]
  | other => simp [addAlias]

theorem addAlias_ok_cache (st : ManagerState) (a t : JsIn)
    (h : (addAlias st a t).1 = Except.ok ()) :
    (addAlias st a t).2.performanceCache = [] := by
  cases a with
  | str name =>
    by_cases hn : name = ""
    · simp [addAlias, hn] at h
    · cases t with
      | str s =>
        by_cases hs : s = ""
        · simp [addAlias, hn, hs] at h
        · simp [addAlias, hn, hs]
      | fn f => simp [addAlias, hn]
      | other => simp [addAlias, hn] at h
  | fn f => simp [addAlias] at h
  | other => simp [addAlias] at h

theorem string_mk_ne_empty (l : List Char) (h : l ≠ []) : (⟨l⟩ : String) ≠ "" :=
  fun e => h (congrArg String.data e)

theorem nodeNormalize_ne_empty (p : String) : nodeNormalize p ≠ "" := by
  simp only [nodeNormalize]
  split
  · decide
  · split
    · split
      · decide
      · split <;> decide
    next hcore =>
      split
      · exact string_mk_ne_empty _ (by simp)
      · apply string_mk_ne_empty
        split
        · simp
        · exact hcore

theorem nodeJoin_ne_empty (a b : String) : nodeJoin a b ≠ "" := by
  rw [nodeJoin]
  by_cases ha : a = ""
  · by_cases hb : b = ""
    · simp [ha, hb]
    · simp [ha, hb, nodeNormalize_ne_empty]
  · by_cases hb : b = ""
    · simp [ha, hb, nodeNormalize_ne_empty]
    · simp [ha, hb, nodeNormalize_ne_empty]

theorem isPrefixOf_append_self (sub y : List Char) :
    sub.isPrefixOf (sub ++ y) = true := by
  induction sub with
  | nil => simp [List.isPrefixOf]
  | cons c cs ih => simp [List.isPrefixOf, ih]

theorem listInfix_append_mid (x sub y : List Char) :
    listInfix sub (x ++ (sub ++ y)) = true := by
  induction x with
  | nil =>
    cases sub with
    | nil =>
      cases y with
      | nil => rfl
      | cons c t => simp [listInfix, List.isPrefixOf]
    | cons c cs => simp [listInfix, isPrefixOf_append_self]
  | cons c cs ih => simp [listInfix, ih]

theorem strContains_handlerErr (a : String) : strContains (handlerErr a) a = true := by
  rw [strContains]
  show listInfix a.data
    (("Custom handler function for alias \x27").data ++ a.data ++
      ("\x27 must return a valid path string").data) = true
  rw [List.append_assoc]
  exact listInfix_append_mid _ _ _

theorem akey_inj : Function.Injective akey := by
  intro m n h
  have hd : List.replicate m 'a' = List.replicate n 'a' := congrArg String.data h
  have hl := congrArg List.length hd
  simpa using hl

/-! ### The claims -/

/-- Claim C10: `reset()` also zeroes the performance statistics: a
`getStats()` call immediately after `reset()` reports all six numbers as
zero, whatever the state was before. -/
theorem claim_C10 (st : ManagerState) :
    getStats (reset st) =
      { resolutions := 0, cacheHits := 0, aliasMatches := 0,
        cacheSize := 0, aliasCount := 0, pathCount := 0 } := rfl

/-- Claim C9, evaluated at the failing input: `addPath("")` does not raise
a validation error.  `nodePath.normalize` runs before the validation check
and turns `""` into `"."`, which passes `!path`, so the call succeeds and
pushes `"."` onto `modulePaths` — the empty string is silently accepted,
contradicting the claim (and the code's own `TypeError` message). -/
theorem claim_C9_code_bug :
    (addPath mgrInit (JsIn.str "")).1 = Except.ok () ∧
    (addPath mgrInit (JsIn.str "")).2.modulePaths = ["."] := by
  constructor <;> rfl

/-- Claim C2: `isPathMatchesAlias`'s matching logic returns `true` exactly
when the path starts with the alias and either equals it or continues with
a path separator (`/` or `\`); including the three boundary examples. -/
theorem claim_C2 :
    (∀ path a : String, isPathMatchesAliasPure path a = true ↔
      (a.data.isPrefixOf path.data = true ∧
        (path = a ∨ jsCharAt path a.length = some '/' ∨
          jsCharAt path a.length = some '\\'))) ∧
    isPathMatchesAliasPure "@foobar/x" "@foo" = false ∧
    isPathMatchesAliasPure "@foo/x" "@foo" = true ∧
    isPathMatchesAliasPure "@foo" "@foo" = true := by
  refine ⟨?_, by decide, by decide, by decide⟩
  intro path a
  rw [isPathMatchesAliasPure]
  by_cases hp : a.data.isPrefixOf path.data = true
  · rw [if_pos hp]
    have hpre : a.data <+: path.data := List.isPrefixOf_iff_prefix.mp hp
    cases hbeq : (path.length == a.length) with
    | true =>
      have hlen : path.length = a.length := by simpa using hbeq
      have hEq : path = a := by
        apply String.ext
        exact (hpre.eq_of_length hlen.symm).symm
      simp [hp, hEq]
    | false =>
      have hlen : path.length ≠ a.length := by
        intro h
        rw [h] at hbeq
        simp at hbeq
      have hlt : a.length < path.length := by
        have hle : a.data.length ≤ path.data.length := hpre.length_le
        have hle' : a.length ≤ path.length := hle
        omega
      obtain ⟨c, hc⟩ : ∃ c, jsCharAt path a.length = some c :=
        ⟨path.data.get ⟨a.length, hlt⟩, List.get?_eq_get hlt⟩
      have hne : path ≠ a := fun e => hlen (by rw [e])
      rw [hc]
      simp [hp, hne]
  · rw [if_neg hp]
    simp [hp]

/-- Claim C7: the cache store keeps at most 1000 entries across every put;
an overflowing put of a fresh key evicts exactly the oldest-inserted
(first) entry; and inserting 1001 pairwise-distinct keys into an empty
store leaves exactly 1000 entries with the first-inserted key absent. -/
theorem claim_C7 :
    (∀ (c : List (String × CacheEntry)) (k : String) (e : CacheEntry),
      c.length ≤ 1000 → (cachePut c k e).length ≤ 1000) ∧
    (∀ (c : List (String × CacheEntry)) (k : String) (e : CacheEntry),
      assocLookup c k = none → c.length = 1000 →
      cachePut c k e = c.tail ++ [(k, e)]) ∧
    (∀ (e : CacheEntry) (k : String) (ks : List String),
      (k :: ks).Nodup → (k :: ks).length = 1001 →
      (putKeys [] e (k :: ks)).length = 1000 ∧
      assocLookup (putKeys [] e (k :: ks)) k = none) := by
  exact ⟨length_cachePut_le, cachePut_of_fresh_full, putKeys_overflow⟩

/-- Witness for C7 at concrete inputs: a full 1000-entry store with the
fresh key `akey 1000`, and the 1001 distinct keys `akey 0 .. akey 1000`. -/
theorem claim_C7_witness :
    (cachePut bigCache (akey 1000) entry0).length ≤ 1000 ∧
    cachePut bigCache (akey 1000) entry0 = bigCache.tail ++ [(akey 1000, entry0)] ∧
    (putKeys [] entry0 (akey 0 :: tailKeys)).length = 1000 ∧
    assocLookup (putKeys [] entry0 (akey 0 :: tailKeys)) (akey 0) = none := by
  have hlen : bigCache.length = 1000 := by simp [bigCache]
  have hlookup : assocLookup bigCache (akey 1000) = none := by
    apply assocLookup_none_of_not_mem
    intro hmem
    simp only [bigCache, List.map_map, List.mem_map, Function.comp] at hmem
    obtain ⟨n, hn, he⟩ := hmem
    have : n = 1000 := akey_inj he
    have := List.mem_range.mp hn
    omega
  have hnodup : (akey 0 :: tailKeys).Nodup := by
    rw [List.nodup_cons]
    constructor
    · intro hmem
      simp only [tailKeys, List.mem_map] at hmem
      obtain ⟨n, _, he⟩ := hmem
      have : n + 1 = 0 := akey_inj he
      omega
    · exact (List.nodup_range 1000).map
        (fun m n h => by have : m + 1 = n + 1 := akey_inj h; omega)
  have hlen2 : (akey 0 :: tailKeys).length = 1001 := by simp [tailKeys]
  exact ⟨claim_C7.1 bigCache (akey 1000) entry0 (le_of_eq hlen),
    claim_C7.2.1 bigCache (akey 1000) entry0 hlookup hlen,
    (claim_C7.2.2 entry0 (akey 0) tailKeys hnodup hlen2).1,
    (claim_C7.2.2 entry0 (akey 0) tailKeys hnodup hlen2).2⟩

/-- Claim C1: with `"@a" → /x` and `"@a/b" → /y` registered (in either
order), `"@a/b/c"` resolves to `/y/c` and `"@a/z"` to `/x/z`; and in
general, whenever some alias matches, the alias `resolveAlias` selects is
a matching alias of maximal length (names are tried in descending length
order), and the result is the selected alias's base path joined with the
request remainder (`pureApply`). -/
theorem claim_C1 :
    (∀ (now : Nat) (parent : Option String) (cwd : String),
      (resolveAlias stC1a now "@a/b/c" parent cwd).1 = Except.ok (CVal.str "/y/c")) ∧
    (∀ (now : Nat) (parent : Option String) (cwd : String),
      (resolveAlias stC1a now "@a/z" parent cwd).1 = Except.ok (CVal.str "/x/z")) ∧
    (∀ (now : Nat) (parent : Option String) (cwd : String),
      (resolveAlias stC1b now "@a/b/c" parent cwd).1 = Except.ok (CVal.str "/y/c")) ∧
    (∀ (now : Nat) (parent : Option String) (cwd : String),
      (resolveAlias stC1b now "@a/z" parent cwd).1 = Except.ok (CVal.str "/x/z")) ∧
    (∀ (st : ManagerState) (req b : String),
      b ∈ st.moduleAliasNames → isPathMatchesAliasPure req b = true →
      (chosenAlias st req).isSome = true) ∧
    (∀ (st : ManagerState) (now : Nat) (req : String) (parent : Option String)
      (cwd : String) (b a : String),
      st.performanceCache = [] →
      b ∈ st.moduleAliasNames →
      isPathMatchesAliasPure req b = true →
      chosenAlias st req = some a →
      isPathMatchesAliasPure req a = true ∧ b.length ≤ a.length ∧
      (resolveAlias st now req parent cwd).1 =
        (pureApply st.moduleAliases req parent cwd a).map CVal.str) := by
  refine ⟨?_, ?_, ?_, ?_, ?_, ?_⟩
  · intro now parent cwd
    rw [resolve_on_empty_cache stC1a now "@a/b/c" parent cwd rfl]
    rfl
  · intro now parent cwd
    rw [resolve_on_empty_cache stC1a now "@a/z" parent cwd rfl]
    rfl
  · intro now parent cwd
    rw [resolve_on_empty_cache stC1b now "@a/b/c" parent cwd rfl]
    rfl
  · intro now parent cwd
    rw [resolve_on_empty_cache stC1b now "@a/z" parent cwd rfl]
    rfl
  · intro st req b hb hpb
    obtain ⟨a, ha⟩ := firstMatch_isSome_of_mem req (sortDesc st.moduleAliasNames) b
      ((mem_sortDesc b _).mpr hb) hpb
    rw [chosenAlias, ha]
    rfl
  · intro st now req parent cwd b a hc hb hpb hch
    rw [chosenAlias] at hch
    obtain ⟨_, hpa⟩ := firstMatch_spec req (sortDesc st.moduleAliasNames) a hch
    refine ⟨hpa, ?_, ?_⟩
    · exact firstMatch_maximal req (sortDesc st.moduleAliasNames) a
        (pairwise_sortDesc _) hch b ((mem_sortDesc b _).mpr hb) hpb
    · rw [resolve_on_empty_cache st now req parent cwd hc]
      simp only [pureResolveStr, chosenAlias, hch]

/-- Witness for C1's general conjunct: in the two-alias table, `"@a"`
matches `"@a/b/c"` but the selected alias is the longer `"@a/b"`. -/
theorem claim_C1_witness :
    isPathMatchesAliasPure "@a/b/c" "@a/b" = true ∧
    ("@a" : String).length ≤ ("@a/b" : String).length ∧
    (resolveAlias stC1a 0 "@a/b/c" none "/").1 =
      (pureApply stC1a.moduleAliases "@a/b/c" none "/" "@a/b").map CVal.str :=
  claim_C1.2.2.2.2.2 stC1a 0 "@a/b/c" none "/" "@a" "@a/b" rfl
    (by decide) (by decide) (by decide)

/-- Counterexample to C3 as stated: with alias `"@a"` bound to a resolver
that throws `Error("boom")`, `resolve("@a/x")` fails — but with the
resolver's own message `"boom"`, which does not contain the alias name.
The rethrown error is the original one, so a throwing resolver does not
produce an error message naming the offending alias. -/
theorem claim_C3_counterexample :
    (resolveAlias stC3 0 "@a/x" none "/cwd").1 = Except.error "boom" ∧
    strContains "boom" "@a" = false := by
  constructor
  · rfl
  · decide

/-- Claim C3 (amended): when the selected alias's target is a resolver
function, a throw propagates the thrown error as-is (its message need not
name the alias); an empty-string or non-string return fails with the
handler error, whose message names the alias; and a non-empty string
return succeeds with that string joined with the request remainder.  The
hypotheses allow further (shorter) matching aliases in the table: the
outcome is the same — no fallback is attempted. -/
theorem claim_C3_amended (st : ManagerState) (now : Nat) (req : String)
    (parent : Option String) (cwd : String) (a : String)
    (f : String → String → String → FnRes) (out : FnRes)
    (hc : st.performanceCache = [])
    (hch : chosenAlias st req = some a)
    (ht : assocLookup st.moduleAliases a = some (Target.fn f))
    (hout : f (fromPathOf parent cwd) req a = out) :
    (resolveAlias st now req parent cwd).1 =
      (match out with
       | FnRes.thrown msg => Except.error msg
       | FnRes.ret (JsVal.str s) =>
         if s = "" then Except.error (handlerErr a)
         else Except.ok (CVal.str (nodeJoin s (jsSubstr req a.length)))
       | FnRes.ret JsVal.other => Except.error (handlerErr a)) ∧
    strContains (handlerErr a) a = true := by
  refine ⟨?_, strContains_handlerErr a⟩
  rw [resolve_on_empty_cache st now req parent cwd hc]
  simp only [pureResolveStr, chosenAlias] at *
  rw [hch]
  simp only [pureApply, ht, hout]
  cases out with
  | thrown msg => rfl
  | ret v =>
    cases v with
    | str s =>
      by_cases hs : s = "" <;> simp [hs, Except.map]
    | other => rfl

/-- Witness for C3 (amended) at a concrete input: a resolver returning the
valid base `"/q"` makes `"@a/x"` resolve to `/q/x`. -/
theorem claim_C3_witness :
    (resolveAlias stC3w 5 "@a/x" none "/").1 = Except.ok (CVal.str "/q/x") ∧
    strContains (handlerErr "@a") "@a" = true :=
  claim_C3_amended stC3w 5 "@a/x" none "/" "@a"
    (fun _ _ _ => FnRes.ret (JsVal.str "/q")) (FnRes.ret (JsVal.str "/q"))
    rfl (by decide) rfl rfl

/-- Counterexample to C4 as stated: `addAliases({"@ok": "/x", "@bad": <non-string>})`
throws on the second pair, yet `"@ok"` is committed and visible in the
table afterwards — the mapping is not applied atomically. -/
theorem claim_C4_counterexample :
    (addAliases mgrInit [("@ok", JsIn.str "/x"), ("@bad", JsIn.other)]).1 =
      Except.error "Target must be a non-empty string or function" ∧
    assocLookup (addAliases mgrInit
        [("@ok", JsIn.str "/x"), ("@bad", JsIn.other)]).2.moduleAliases "@ok" =
      some (Target.str "/x") := by
  constructor <;> rfl

/-- Claim C4 (amended): `addAliases` applies `addAlias` to each pair in
iteration order.  A mapping of valid pairs commits all of them; a mapping
with an invalid pair throws that pair's `TypeError` and leaves exactly the
pairs before it committed — the already-applied prefix is not rolled
back, and the failing pair and the pairs after it are not applied. -/
theorem claim_C4_amended :
    (∀ (st : ManagerState) (l : List (String × JsIn)),
      (∀ p ∈ l, p.1 ≠ "" ∧ validTarget p.2 = true) →
      addAliases st l = (Except.ok (), applyAliases st l)) ∧
    (∀ (st : ManagerState) (good : List (String × JsIn)) (a : String) (t : JsIn)
      (rest : List (String × JsIn)),
      (∀ p ∈ good, p.1 ≠ "" ∧ validTarget p.2 = true) →
      (a = "" ∨ validTarget t = false) →
      addAliases st (good ++ (a, t) :: rest) =
        (Except.error (addErrMsg a t), applyAliases st good)) := by
  have hstep : ∀ (st : ManagerState) (p : String × JsIn), p.1 ≠ "" →
      validTarget p.2 = true →
      addAlias st (.str p.1) p.2 = (Except.ok (), (addAlias st (.str p.1) p.2).2) := by
    intro st p h1 h2
    have hok := (addAlias_valid st p.1 p.2 h1 h2).1
    cases haa : addAlias st (.str p.1) p.2 with
    | mk r st1 =>
      rw [haa] at hok
      simp only at hok
      rw [hok]
  constructor
  · intro st l h
    induction l generalizing st with
    | nil => rfl
    | cons p rest ih =>
      have hv := h p (List.mem_cons_self _ _)
      rw [addAliases, hstep st p hv.1 hv.2]
      show addAliases (addAlias st (.str p.1) p.2).2 rest =
        (Except.ok (), applyAliases st (p :: rest))
      rw [ih _ (fun q hq => h q (List.mem_cons_of_mem _ hq))]
      rfl
  · intro st good a t rest hgood hbad
    induction good generalizing st with
    | nil =>
      rw [List.nil_append, addAliases, addAlias_invalid st a t hbad]
      rfl
    | cons p good' ih =>
      have hv := hgood p (List.mem_cons_self _ _)
      rw [List.cons_append, addAliases, hstep st p hv.1 hv.2]
      show addAliases (addAlias st (.str p.1) p.2).2 (good' ++ (a, t) :: rest) =
        (Except.error (addErrMsg a t), applyAliases st (p :: good'))
      rw [ih _ (fun q hq => hgood q (List.mem_cons_of_mem _ hq))]
      rfl

/-- Witness for C4 (amended) at concrete inputs: a valid two-pair mapping
commits both pairs; a mapping with one valid and one invalid pair throws
and commits only the valid prefix. -/
theorem claim_C4_witness :
    addAliases mgrInit [("@u", JsIn.str "/u"), ("@v", JsIn.str "/v")] =
      (Except.ok (),
        applyAliases mgrInit [("@u", JsIn.str "/u"), ("@v", JsIn.str "/v")]) ∧
    addAliases mgrInit [("@ok", JsIn.str "/x"), ("@bad", JsIn.other)] =
      (Except.error (addErrMsg "@bad" JsIn.other),
        applyAliases mgrInit [("@ok", JsIn.str "/x")]) := by
  constructor
  · exact claim_C4_amended.1 mgrInit [("@u", JsIn.str "/u"), ("@v", JsIn.str "/v")]
      (by decide)
  · exact claim_C4_amended.2 mgrInit [("@ok", JsIn.str "/x")] "@bad" JsIn.other []
      (by decide) (Or.inr rfl)

theorem reloadAdjust_str (base s : String) :
    reloadAdjust base (JsIn.str s) =
      .ok (if jsCharAt s 0 = some '/' then s else nodeJoin base s) := by
  simp only [reloadAdjust]
  split <;> rfl

theorem reloadAdd_partial (base : String) :
    ∀ (good : List (String × String)) (st : ManagerState) (a : String) (t : JsIn)
      (rest : List (String × JsIn)),
      (∀ p ∈ good, p.1 ≠ "") →
      (good.map Prod.fst).Nodup →
      (∀ p ∈ good, assocLookup st.moduleAliases p.1 = none) →
      (a = "" ∨ ∀ s, t ≠ JsIn.str s) →
      (reloadAdd st base
        (good.map (fun p => (p.1, JsIn.str p.2)) ++ (a, t) :: rest)).moduleAliases =
        st.moduleAliases ++
          good.map (fun p => (p.1, Target.str (reloadTargetOf base p.2))) := by
  intro good
  induction good with
  | nil =>
    intro st a t rest _ _ _ hbad
    simp only [List.map_nil, List.nil_append, List.append_nil]
    rcases hbad with rfl | hns
    · cases t with
      | str s =>
        simp only [reloadAdd, reloadAdjust_str base s,
          addAlias_invalid st "" (JsIn.str _) (Or.inl rfl)]
      | fn f => rfl
      | other => rfl
    · cases t with
      | str s => exact absurd rfl (hns s)
      | fn f => rfl
      | other => rfl
  | cons p good' ih =>
    intro st a t rest hgood hnd hfresh hbad
    have hp1 : p.1 ≠ "" := (hgood p (List.mem_cons_self _ _))
    have ht'ne : (if jsCharAt p.2 0 = some '/' then p.2 else nodeJoin base p.2) ≠ "" := by
      split
      next h =>
        intro e
        rw [e] at h
        simp [jsCharAt] at h
      next => exact nodeJoin_ne_empty base p.2
    rw [List.map_cons, List.nodup_cons] at hnd
    cases haa : addAlias st (.str p.1)
        (.str (if jsCharAt p.2 0 = some '/' then p.2 else nodeJoin base p.2)) with
    | mk r st1 =>
      have hok := (addAlias_valid st p.1
        (.str (if jsCharAt p.2 0 = some '/' then p.2 else nodeJoin base p.2))
        hp1 (by simpa [validTarget] using ht'ne)).1
      rw [haa] at hok
      simp only at hok
      subst hok
      have htbl : st1.moduleAliases =
          st.moduleAliases ++ [(p.1, Target.str (reloadTargetOf base p.2))] := by
        have hv := addAlias_valid_table st p.1
          (if jsCharAt p.2 0 = some '/' then p.2 else nodeJoin base p.2) hp1 ht'ne
        rw [haa] at hv
        simp only at hv
        rw [hv, assocSet_of_lookup_none _ _ _ (hfresh p (List.mem_cons_self _ _))]
        rfl
      simp only [List.map_cons, List.cons_append, reloadAdd, reloadAdjust_str base p.2,
        haa]
      show (reloadAdd st1 base
        (List.map (fun p => (p.1, JsIn.str p.2)) good' ++ (a, t) :: rest)).moduleAliases = _
      rw [ih st1 a t rest (fun q hq => hgood q (List.mem_cons_of_mem _ hq)) hnd.2
        ?fresh hbad]
      · rw [htbl, List.append_assoc]
        rfl
      case fresh =>
        intro q hq
        rw [htbl]
        rw [assocLookup_append_of_none _ _ _ (hfresh q (List.mem_cons_of_mem _ hq))]
        have hne : p.1 ≠ q.1 := by
          intro e
          exact hnd.1 (e ▸ List.mem_map_of_mem Prod.fst hq)
        simp [assocLookup, hne]

/-- Counterexample to C5 as stated: a reload whose source parses but whose
mapping is malformed (an empty alias name, rejected by `addAlias`) does
not leave the previous table intact: the table is cleared before the
entries are re-added, so the failed reload ends with an empty table
instead of the pre-reload one. -/
theorem claim_C5_counterexample :
    (reloadAliases stC5 "/base" (Except.ok [("", JsIn.str "x")])).moduleAliases = [] ∧
    stC5.moduleAliases ≠ [] := by
  constructor
  · rfl
  · intro h
    exact List.noConfusion h

/-- Claim C5 (amended): if the configuration source cannot be re-read or
parsed (the re-read throws), the table is left exactly as before the
reload attempt.  But if the source parses and its mapping contains a
malformed entry, the table is first cleared and the entries before the
malformed one are re-added: the reload ends with exactly that prefix, not
with the previous table. -/
theorem claim_C5_amended :
    (∀ (st : ManagerState) (base err : String),
      reloadAliases st base (Except.error err) = st) ∧
    (∀ (st : ManagerState) (base : String) (good : List (String × String))
      (a : String) (t : JsIn) (rest : List (String × JsIn)),
      (∀ p ∈ good, p.1 ≠ "") → (good.map Prod.fst).Nodup →
      (a = "" ∨ ∀ s, t ≠ JsIn.str s) →
      (reloadAliases st base
        (Except.ok (good.map (fun p => (p.1, JsIn.str p.2)) ++
          (a, t) :: rest))).moduleAliases =
        good.map (fun p => (p.1, Target.str (reloadTargetOf base p.2)))) := by
  constructor
  · intro st base err
    rfl
  · intro st base good a t rest h1 h2 h3
    have h := reloadAdd_partial base good
      { st with moduleAliases := [], moduleAliasNames := [], performanceCache := [] }
      a t rest h1 h2 (fun p _ => rfl) h3
    simpa using h

/-- Witness for C5 (amended): a failed re-read keeps the one-alias table;
a parsed mapping with a valid entry followed by an empty-named entry ends
with exactly the valid entry. -/
theorem claim_C5_witness :
    reloadAliases stC5 "/base" (Except.error "ENOENT") = stC5 ∧
    (reloadAliases stC5 "/base"
      (Except.ok [("@new", JsIn.str "/n"), ("", JsIn.str "x")])).moduleAliases =
      [("@new", Target.str (reloadTargetOf "/base" "/n"))] :=
  ⟨claim_C5_amended.1 stC5 "/base" "ENOENT",
    claim_C5_amended.2 stC5 "/base" [("@new", "/n")] "" (JsIn.str "x") []
      (by decide) (by decide) (Or.inl rfl)⟩

theorem resolveAlias_passthrough (st : ManagerState) (now : Nat) (req : String)
    (parent : Option String) (cwd : String)
    (hnm : ∀ a ∈ st.moduleAliasNames, isPathMatchesAliasPure req a = false)
    (hok : cacheOkP st.performanceCache)
    (hres : ∀ e, assocLookup st.performanceCache (resolveKey req parent) = some e →
      e.value = CVal.str req)
    (hcons : ∀ a ∈ st.moduleAliasNames, ∀ e,
      assocLookup st.performanceCache (matchKey req a) = some e →
      e.value = CVal.bool (isPathMatchesAliasPure req a))
    (hnc : ∀ a ∈ st.moduleAliasNames, matchKey req a ≠ resolveKey req parent) :
    (resolveAlias st now req parent cwd).1 = Except.ok (CVal.str req) ∧
    (resolveAlias st now req parent cwd).2.moduleAliases = st.moduleAliases ∧
    (resolveAlias st now req parent cwd).2.moduleAliasNames = st.moduleAliasNames ∧
    cacheOkP (resolveAlias st now req parent cwd).2.performanceCache ∧
    (∀ e, assocLookup (resolveAlias st now req parent cwd).2.performanceCache
      (resolveKey req parent) = some e → e.value = CVal.str req) ∧
    (∀ a ∈ st.moduleAliasNames, ∀ e,
      assocLookup (resolveAlias st now req parent cwd).2.performanceCache
        (matchKey req a) = some e →
      e.value = CVal.bool (isPathMatchesAliasPure req a)) := by
  have hpure : pureResolveStr st req parent cwd = .ok req := by
    rw [pureResolveStr, chosenAlias,
      firstMatch_none req _ (fun a ha => hnm a ((mem_sortDesc a _).mp ha))]
  by_cases hhit : ∃ e, assocLookup st.performanceCache (resolveKey req parent) = some e ∧
      now - e.timestamp < 5000
  · obtain ⟨e, hl, hf⟩ := hhit
    rw [resolveAlias_hit st now req parent cwd e hl hf]
    refine ⟨by rw [hres e hl], rfl, rfl, by exact hok, ?_, ?_⟩
    · intro e' he'
      exact hres e' he'
    · intro a ha e' he'
      exact hcons a ha e' he'
  · have hmiss : ∀ e, assocLookup st.performanceCache (resolveKey req parent) = some e →
        ¬ now - e.timestamp < 5000 := fun e he hf => hhit ⟨e, he, hf⟩
    obtain ⟨h1, h2, h3, h4, h5, h6, h7⟩ :=
      resolveAlias_miss_spec st now req parent cwd hok hmiss hcons
    refine ⟨?_, h2, h3, h5, ?_, ?_⟩
    · rw [h1, hpure]
      rfl
    · intro e' he'
      rw [h6 req hpure] at he'
      cases he'
      rfl
    · intro a ha e' he'
      rcases h7 (matchKey req a) e' he' with h0 | ⟨b, hb, hk, hv⟩ | ⟨h0, _⟩
      · exact hcons a ha e' h0
      · rw [matchKey_inj req a b hk]
        exact hv
      · exact absurd h0 (hnc a ha)

/-- Claim C8: a request that no registered alias matches resolves to
itself, any number of times in a row (whatever the call timestamps), and
never with an error — pass-through is idempotent.  The cache hypotheses
say the cache holds no entry contradicting the table (they hold in
particular for the empty cache every table mutation leaves behind). -/
theorem claim_C8 (st : ManagerState) (req : String) (parent : Option String)
    (cwd : String) (ts : List Nat)
    (hnm : ∀ a ∈ st.moduleAliasNames, isPathMatchesAliasPure req a = false)
    (hok : cacheOkP st.performanceCache)
    (hres : ∀ e, assocLookup st.performanceCache (resolveKey req parent) = some e →
      e.value = CVal.str req)
    (hcons : ∀ a ∈ st.moduleAliasNames, ∀ e,
      assocLookup st.performanceCache (matchKey req a) = some e →
      e.value = CVal.bool (isPathMatchesAliasPure req a))
    (hnc : ∀ a ∈ st.moduleAliasNames, matchKey req a ≠ resolveKey req parent) :
    (resolveMany st req parent cwd ts).1 =
      List.replicate ts.length (Except.ok (CVal.str req)) := by
  induction ts generalizing st with
  | nil => rfl
  | cons t ts ih =>
    obtain ⟨p1, p2, p3, p4, p5, p6⟩ :=
      resolveAlias_passthrough st t req parent cwd hnm hok hres hcons hnc
    cases hra : resolveAlias st t req parent cwd with
    | mk r st1 =>
      rw [hra] at p1 p2 p3 p4 p5 p6
      simp only at p1 p2 p3 p4 p5 p6
      subst p1
      have ihh := ih st1 (fun a ha => hnm a (p3 ▸ ha)) p4 p5
        (fun a ha => p6 a (p3 ▸ ha)) (fun a ha => hnc a (p3 ▸ ha))
      cases hrm : resolveMany st1 req parent cwd ts with
      | mk rs st2 =>
        rw [hrm] at ihh
        simp only at ihh
        simp only [resolveMany, hra, hrm, List.length_cons, List.replicate_succ]
        rw [ihh]

/-- Witness for C8: the alias `"@x"` does not match `"lodash"`, and three
successive resolutions all return `"lodash"` unchanged. -/
theorem claim_C8_witness :
    (resolveMany stC8 "lodash" none "/" [0, 1, 2]).1 =
      List.replicate 3 (Except.ok (CVal.str "lodash")) :=
  claim_C8 stC8 "lodash" none "/" [0, 1, 2] (by decide) cacheOkP_nil
    (by intro e he; simp [stC8, mgrInit, assocLookup] at he)
    (by intro a _ e he; simp [stC8, mgrInit, assocLookup] at he)
    (by decide)

theorem addAliases_state_or_cache : ∀ (l : List (String × JsIn)) (st : ManagerState),
    (addAliases st l).2 = st ∨ (addAliases st l).2.performanceCache = [] := by
  intro l
  induction l with
  | nil => intro st; exact Or.inl rfl
  | cons p rest ih =>
    intro st
    cases haa : addAlias st (.str p.1) p.2 with
    | mk r st1 =>
      cases r with
      | error e =>
        have h2 := addAlias_error_state st (.str p.1) p.2 e (by rw [haa])
        rw [haa] at h2
        simp only at h2
        simp only [addAliases, haa]
        exact Or.inl h2
      | ok u =>
        cases u
        have hc := addAlias_ok_cache st (.str p.1) p.2 (by rw [haa])
        rw [haa] at hc
        simp only at hc
        simp only [addAliases, haa]
        rcases ih st1 with h | h
        · rw [h]
          exact Or.inr hc
        · exact Or.inr h

theorem reloadAdd_cache_pres : ∀ (l : List (String × JsIn)) (st : ManagerState)
    (base : String), st.performanceCache = [] →
    (reloadAdd st base l).performanceCache = [] := by
  intro l
  induction l with
  | nil => intro st base h; exact h
  | cons p rest ih =>
    intro st base h
    obtain ⟨a, t⟩ := p
    cases hadj : reloadAdjust base t with
    | error e =>
      simp only [reloadAdd, hadj]
      exact h
    | ok t' =>
      cases haa : addAlias st (.str a) (.str t') with
      | mk r st1 =>
        cases r with
        | error e =>
          have h2 := addAlias_error_state st (.str a) (.str t') e (by rw [haa])
          rw [haa] at h2
          simp only at h2
          simp only [reloadAdd, hadj, haa]
          rw [h2]
          exact h
        | ok u =>
          cases u
          have hc := addAlias_ok_cache st (.str a) (.str t') (by rw [haa])
          rw [haa] at hc
          simp only at hc
          simp only [reloadAdd, hadj, haa]
          exact ih st1 base hc

/-- Claim C6: (a) re-resolving the same `(request, context)` within the
5000 ms TTL after a first (uncached, successful) resolution returns the
identical result and bumps `cacheHits` by exactly one; (b) every table
mutation — a successful `addAlias`, an `addAliases` that changes the
table, a reload with a readable source, and `reset` — leaves the cache
empty; and (c) a resolution on an empty cache recomputes from the table
(`pureResolveStr`) rather than returning any stale value. -/
theorem claim_C6 :
    (∀ (st : ManagerState) (now1 now2 : Nat) (req : String)
      (parent : Option String) (cwd : String) (v : CVal),
      cacheOkP st.performanceCache →
      assocLookup st.performanceCache (resolveKey req parent) = none →
      (∀ a ∈ st.moduleAliasNames, ∀ e,
        assocLookup st.performanceCache (matchKey req a) = some e →
        e.value = CVal.bool (isPathMatchesAliasPure req a)) →
      (resolveAlias st now1 req parent cwd).1 = Except.ok v →
      now2 - now1 < 5000 →
      (resolveAlias (resolveAlias st now1 req parent cwd).2 now2 req parent cwd).1 =
        Except.ok v ∧
      (resolveAlias (resolveAlias st now1 req parent cwd).2
          now2 req parent cwd).2.stats.cacheHits =
        (resolveAlias st now1 req parent cwd).2.stats.cacheHits + 1) ∧
    (∀ (st : ManagerState) (a t : JsIn),
      (addAlias st a t).1 = Except.ok () →
      (addAlias st a t).2.performanceCache = []) ∧
    (∀ (st : ManagerState) (l : List (String × JsIn)),
      (addAliases st l).2.moduleAliases ≠ st.moduleAliases →
      (addAliases st l).2.performanceCache = []) ∧
    (∀ (st : ManagerState) (base : String) (l : List (String × JsIn)),
      (reloadAliases st base (Except.ok l)).performanceCache = []) ∧
    (∀ (st : ManagerState), (reset st).performanceCache = []) ∧
    (∀ (st : ManagerState) (now : Nat) (req : String) (parent : Option String)
      (cwd : String), st.performanceCache = [] →
      (resolveAlias st now req parent cwd).1 =
        (pureResolveStr st req parent cwd).map CVal.str) := by
  refine ⟨?_, addAlias_ok_cache, ?_, ?_, fun _ => rfl, ?_⟩
  · intro st now1 now2 req parent cwd v hok hnone hcons h1 httl
    have hmiss : ∀ e, assocLookup st.performanceCache (resolveKey req parent) = some e →
        ¬ now1 - e.timestamp < 5000 := by
      intro e he
      rw [hnone] at he
      cases he
    obtain ⟨m1, m2, m3, m4, m5, m6, m7⟩ :=
      resolveAlias_miss_spec st now1 req parent cwd hok hmiss hcons
    cases hp : pureResolveStr st req parent cwd with
    | error e0 =>
      rw [m1, hp] at h1
      simp [Except.map] at h1
    | ok r =>
      rw [m1, hp] at h1
      simp only [Except.map] at h1
      have hv : v = CVal.str r := by
        cases h1
        rfl
      have hentry := m6 r hp
      rw [resolveAlias_hit (resolveAlias st now1 req parent cwd).2 now2 req parent cwd
        ⟨CVal.str r, now1⟩ hentry (by simpa using httl)]
      exact ⟨by rw [hv], rfl⟩
  · intro st l h
    rcases addAliases_state_or_cache l st with h0 | h0
    · exact absurd (by rw [h0]) h
    · exact h0
  · intro st base l
    exact reloadAdd_cache_pres l _ base rfl
  · exact resolve_on_empty_cache

/-- Witness for C6 at concrete inputs: resolving `"@u/h"` twice (times 0
and 1) on the one-alias table; a concrete `addAlias`/`addAliases`; and a
recomputation on the empty cache. -/
theorem claim_C6_witness :
    ((resolveAlias (resolveAlias stC6 0 "@u/h" none "/").2 1 "@u/h" none "/").1 =
      Except.ok (CVal.str "/p/h") ∧
    (resolveAlias (resolveAlias stC6 0 "@u/h" none "/").2
        1 "@u/h" none "/").2.stats.cacheHits =
      (resolveAlias stC6 0 "@u/h" none "/").2.stats.cacheHits + 1) ∧
    (addAlias stC6 (JsIn.str "@w") (JsIn.str "/w")).2.performanceCache = [] ∧
    (addAliases stC6 [("@w", JsIn.str "/w")]).2.performanceCache = [] ∧
    (resolveAlias stC6 7 "@u/h" none "/").1 =
      (pureResolveStr stC6 "@u/h" none "/").map CVal.str := by
  refine ⟨?_, ?_, ?_, ?_⟩
  · exact claim_C6.1 stC6 0 1 "@u/h" none "/" (CVal.str "/p/h") cacheOkP_nil rfl
      (by intro a _ e he; simp [stC6, mgrInit, assocLookup] at he) rfl (by decide)
  · exact claim_C6.2.1 stC6 (JsIn.str "@w") (JsIn.str "/w") rfl
  · refine claim_C6.2.2.1 stC6 [("@w", JsIn.str "/w")] ?_
    intro h
    exact absurd (congrArg List.length h) (by decide)
  · exact claim_C6.2.2.2.2.2 stC6 7 "@u/h" none "/" rfl
